import Mathlib

/-!
# Online food ordering system: cart, billing, catalog and order ledger

A shallow embedding of `src/main.cpp` together with theorems about it.

Modelling conventions.

* A C++ `int` is an `Int`.  Cart quantities are mathematical integers.  The
  identifier counters (`nextId`, `nextOrderId`) are 32-bit: where the source
  adds one to an identifier the result is wrapped to 32 bits (`wrapInt32`), as
  the compiled code does on signed overflow.
* A finite C++ `double` is the rational number it holds.  `Cart::subtotal`
  rounds every product and every sum to the nearest IEEE-754 binary64 value,
  ties to even (`toDouble`), one rounding per operation; infinities and NaN
  are not modelled.  The amounts `Checkout` derives from the subtotal are
  written with the exact operations, and comparisons are exact.
  `std::min` and `std::max` are written out as the comparisons the library
  performs.
* A C++ `std::string` is a `String`; `toupper` in the default "C" locale
  changes the letters `a`..`z` only, which is `Char.toUpper`.
* A `std::vector` is a `List`; `push_back` appends at the end, and
  `remove_if` followed by `erase` keeps, in order, the elements that fail the
  predicate.
* A text file is `Option (List String)`: `none` when the file cannot be
  opened, otherwise its lines in order.
-/

namespace FoodOrdering

/-! ## Data model -/

/-- Catalog entry, `struct MenuItem`. -/
structure MenuItem where
  id : Int
  name : String
  category : String
  price : ℚ
  available : Bool
  deriving DecidableEq

/-- Cart line, `struct CartItem`: a snapshot of the item and a quantity. -/
structure CartItem where
  item : MenuItem
  qty : Int
  deriving DecidableEq

/-- The class `Cart`: its only member is the vector of lines. -/
structure Cart where
  items : List CartItem
  deriving DecidableEq

/-- The result of billing, `struct Bill`. -/
structure Bill where
  subtotal : ℚ
  discount : ℚ
  gst : ℚ
  delivery : ℚ
  total : ℚ
  coupon : String
  deriving DecidableEq

/-! ## Library functions -/

/-- The comparison `std::min(a, b)` performs: `b` when `b < a`, else `a`. -/
def stdMin (a b : ℚ) : ℚ := if b < a then b else a

/-- The comparison `std::max(a, b)` performs: `b` when `a < b`, else `a`. -/
def stdMax (a b : ℚ) : ℚ := if a < b then b else a

/-- The value a 32-bit two's complement `int` holds for the arithmetic result
`x`: `x` itself when it fits, `x` modulo `2^32` otherwise. -/
def wrapInt32 (x : Int) : Int := (x + 2147483648) % 4294967296 - 2147483648

/-- The integer nearest to `y`, the even one of the two when `y` lies half way. -/
def roundHalfEven (y : ℚ) : Int :=
  let f := ⌊y⌋
  if y - f < 1 / 2 then f
  else if 1 / 2 < y - f then f + 1
  else if f % 2 = 0 then f else f + 1

/-- The IEEE-754 binary64 value nearest to `x`, ties to even: 53 significant
bits at the exponent of `x`, the exponent not below that of the subnormal
numbers.  Overflow to infinity is not modelled. -/
def toDouble (x : ℚ) : ℚ :=
  if x = 0 then 0
  else
    let e : Int := max (Int.log 2 |x| - 52) (-1074)
    (roundHalfEven (x / (2 : ℚ) ^ e) : ℚ) * (2 : ℚ) ^ e

/-- The loop `for (auto &ch : c) ch = toupper(ch);`. -/
def upperCase (s : String) : String := ⟨s.data.map Char.toUpper⟩

/-! ## Cart -/

/-- A fresh `Cart`. -/
def Cart.empty : Cart := ⟨[]⟩

/-- `Cart::clear`. -/
def Cart.clear (_c : Cart) : Cart := ⟨[]⟩

/-- The loop of `Cart::add` followed by its `push_back`: the first line with
the item's id gets `qty` added; when no line has it, a new line is appended. -/
def Cart.addLoop (mi : MenuItem) (qty : Int) : List CartItem → List CartItem
  | [] => [⟨mi, qty⟩]
  | ci :: rest =>
    if ci.item.id = mi.id then { ci with qty := ci.qty + qty } :: rest
    else ci :: Cart.addLoop mi qty rest

/-- `Cart::add`. -/
def Cart.add (c : Cart) (mi : MenuItem) (qty : Int) : Cart :=
  if qty ≤ 0 then c else ⟨Cart.addLoop mi qty c.items⟩

/-- `Cart::remove`: `remove_if` keeps the lines with another id; the iterator
it returns is `end()` exactly when nothing was dropped, and then the function
returns `false` before `erase`. -/
def Cart.remove (c : Cart) (id : Int) : Cart × Bool :=
  let kept := c.items.filter (fun ci => !decide (ci.item.id = id))
  if kept.length = c.items.length then (c, false) else (⟨kept⟩, true)

/-- The loop of `Cart::updateQty`, with the lines already passed in `pre`
and the lines still to visit as the last argument. -/
def Cart.updateQtyLoop (c : Cart) (id qty : Int) :
    List CartItem → List CartItem → Cart × Bool
  | _, [] => (c, false)
  | pre, ci :: rest =>
    if ci.item.id = id then
      if qty ≤ 0 then ((c.remove id).1, true)
      else (⟨pre ++ { ci with qty := qty } :: rest⟩, true)
    else Cart.updateQtyLoop c id qty (pre ++ [ci]) rest

/-- The lines after the assignment `ci.qty = qty` on the first line with the
id; used to describe what the loop of `Cart::updateQty` leaves. -/
def Cart.setQty (id qty : Int) : List CartItem → List CartItem
  | [] => []
  | ci :: rest =>
    if ci.item.id = id then { ci with qty := qty } :: rest
    else ci :: Cart.setQty id qty rest

/-- `Cart::updateQty`. -/
def Cart.updateQty (c : Cart) (id qty : Int) : Cart × Bool :=
  Cart.updateQtyLoop c id qty [] c.items

/-- `Cart::subtotal`: `double s = 0; for (...) s += ci.item.price * ci.qty;`.
The quantity converts to `double` without rounding; the product and the sum
are each rounded to a `double`. -/
def Cart.subtotal (c : Cart) : ℚ :=
  c.items.foldl (fun s ci => toDouble (s + toDouble (ci.item.price * (ci.qty : ℚ)))) 0

/-- The exact total of the cart lines, price times quantity summed without
rounding: what the subtotal is in decimal arithmetic. -/
def Cart.exactTotal (c : Cart) : ℚ :=
  (c.items.map (fun ci => ci.item.price * (ci.qty : ℚ))).sum

/-- Lines whose prices are whole non-negative numbers and whose quantities
are not negative. -/
def Cart.WholeLines (l : List CartItem) : Prop :=
  ∀ ci ∈ l, (∃ n : ℕ, ci.item.price = (n : ℚ)) ∧ 0 ≤ ci.qty

/-- `Cart::totalQty`. -/
def Cart.totalQty (c : Cart) : Int :=
  c.items.foldl (fun q ci => q + ci.qty) 0

/-! ## Checkout -/

/-- `Checkout::applyCoupon`: the first component is the returned value, the
second the value stored through `discountOut`. -/
def Checkout.applyCoupon (code : String) (subtotal : ℚ) : ℚ × ℚ :=
  let c := upperCase code
  let discount : ℚ :=
    if c = "SAVE10" then stdMin (subtotal * 0.10) 150.0
    else if c = "FLAT50" then 50.0
    else 0.0
  (subtotal - discount, discount)

/-- `Checkout::compute`.  `Bill::discount` is value-initialised to zero and
is written only through `applyCoupon`. -/
def Checkout.compute (cart : Cart) (coupon : String) : Bill :=
  let subtotal := cart.subtotal
  let r : ℚ × ℚ :=
    if coupon ≠ "" then Checkout.applyCoupon coupon subtotal else (subtotal, 0)
  let discountedSubtotal := r.1
  let gst := stdMax 0.0 (discountedSubtotal * 0.05)
  let delivery : ℚ := if subtotal < 399.0 then 35.0 else 0.0
  let total := stdMax 0.0 (discountedSubtotal + gst + delivery)
  { subtotal := subtotal, discount := r.2, gst := gst, delivery := delivery,
    total := total, coupon := coupon }

/-! ## Text helpers -/

/-- The characters `Menu::trim` strips: `" \t\r\n"`. -/
def isTrimChar (c : Char) : Bool :=
  c == ' ' || c == '\t' || c == '\r' || c == '\n'

/-- `Menu::trim`: the text from the first to the last character outside
`" \t\r\n"`, empty when there is none. -/
def trim (s : String) : String :=
  ⟨((s.data.dropWhile isTrimChar).reverse.dropWhile isTrimChar).reverse⟩

/-- One `getline(ss, field, ',')` on the unread characters of a line: the
field read and the characters left after the comma. -/
def getField (s : List Char) : String × List Char :=
  (⟨s.takeWhile (fun c => c != ',')⟩, (s.dropWhile (fun c => c != ',')).drop 1)

/-- The test `all_of(s.begin(), s.end(), ::isdigit)`. -/
def allDigits (s : String) : Bool := s.data.all Char.isDigit

/-- White space as `strtol` skips it. -/
def isSpaceC (c : Char) : Bool :=
  c == ' ' || c == '\t' || c == '\n' || c == '\x0b' || c == '\x0c' || c == '\r'

/-- The value of a run of decimal digits. -/
def digitsValue (ds : List Char) : Nat :=
  ds.foldl (fun a c => 10 * a + (c.toNat - 48)) 0

/-- `std::stoi` in base 10: leading white space, an optional sign and the
longest run of digits; `none` stands for the exception thrown when there is
no digit (`invalid_argument`) or the value does not fit an `int`
(`out_of_range`). -/
def stoi (s : String) : Option Int :=
  let s1 := s.data.dropWhile isSpaceC
  let neg : Bool := s1.head? == some '-'
  let s2 := match s1 with
    | '-' :: r => r
    | '+' :: r => r
    | _ => s1
  let ds := s2.takeWhile Char.isDigit
  if ds = [] then none
  else
    let v : Int := if neg then -(digitsValue ds : Int) else (digitsValue ds : Int)
    if v < -2147483648 ∨ 2147483647 < v then none else some v

/-! ## Menu -/

/-- The class `Menu`: the catalog and the next identifier to assign.  The
file `menu.csv` that `Menu::save` rewrites is not part of this state. -/
structure Menu where
  items : List MenuItem
  nextId : Int
  deriving DecidableEq

/-- A freshly constructed `Menu`: no items, `nextId = 1`. -/
def Menu.fresh : Menu := ⟨[], 1⟩

/-- The availability column of `menu.csv` as `Menu::load` reads it. -/
def parseAvailable (av : String) : Bool :=
  !(av == "0" || av == "false" || av == "False" || av == "FALSE")

/-- The `while (getline(fin, line))` loop of `Menu::load`.  `stod` is the
library's `std::stod`, taken as a parameter; `none` stands for an exception
thrown by `stoi` or `stod`. -/
def Menu.loadLoop (stod : String → Option ℚ) :
    Bool → List String → Menu → Option Menu
  | _, [], m => some m
  | first, line :: rest, m =>
    if line = "" then Menu.loadLoop stod first rest m
    else
      let f1 := getField line.data
      let f2 := getField f1.2
      let f3 := getField f2.2
      let f4 := getField f3.2
      let f5 := getField f4.2
      if first && !allDigits f1.1 then Menu.loadLoop stod false rest m
      else
        match stoi (trim f1.1) with
        | none => none
        | some id =>
          match stod (trim f4.1) with
          | none => none
          | some price =>
            let mi : MenuItem :=
              { id := id, name := trim f2.1, category := trim f3.1, price := price,
                available := parseAvailable (trim f5.1) }
            Menu.loadLoop stod false rest
              ⟨m.items ++ [mi], max m.nextId (wrapInt32 (mi.id + 1))⟩

/-- `Menu::load` on the content of `menu.csv`: the resulting state and the
returned flag. -/
def Menu.load (stod : String → Option ℚ) (m : Menu) (file : Option (List String)) :
    Option (Menu × Bool) :=
  match file with
  | none => some (⟨[], m.nextId⟩, false)
  | some lines =>
    match Menu.loadLoop stod true lines ⟨[], m.nextId⟩ with
    | none => none
    | some m1 => some (m1, true)

/-- The default catalog of `Menu::seedIfEmpty`. -/
def Menu.seedItems : List MenuItem :=
  [ ⟨1, "Margherita Pizza", "Pizza", 249.00, true⟩,
    ⟨2, "Farmhouse Pizza", "Pizza", 399.00, true⟩,
    ⟨3, "Masala Dosa", "South Indian", 129.00, true⟩,
    ⟨4, "Paneer Butter Masala", "North Indian", 219.00, true⟩,
    ⟨5, "Veg Biryani", "Rice", 199.00, true⟩,
    ⟨6, "Chicken Biryani", "Rice", 249.00, true⟩,
    ⟨7, "Cold Coffee", "Beverages", 99.00, true⟩,
    ⟨8, "Gulab Jamun", "Desserts", 79.00, true⟩ ]

/-- `Menu::seedIfEmpty`. -/
def Menu.seedIfEmpty (stod : String → Option ℚ) (m : Menu) (file : Option (List String)) :
    Option Menu :=
  match Menu.load stod m file with
  | none => none
  | some (m1, true) => some m1
  | some (_, false) => some ⟨Menu.seedItems, 9⟩

/-- The loop of `Menu::findById`. -/
def Menu.findLoop (id : Int) : List MenuItem → Option MenuItem
  | [] => none
  | mi :: rest =>
    if mi.id = id ∧ mi.available = true then some mi else Menu.findLoop id rest

/-- `Menu::findById`; `none` is the null pointer. -/
def Menu.findById (m : Menu) (id : Int) : Option MenuItem :=
  Menu.findLoop id m.items

/-- `Menu::addItem`: the new item takes `nextId`, which is then incremented. -/
def Menu.addItem (m : Menu) (name category : String) (price : ℚ) (available : Bool) : Menu :=
  ⟨m.items ++ [⟨m.nextId, name, category, price, available⟩], wrapInt32 (m.nextId + 1)⟩

/-- The loop of `Menu::editItem`: the first item with the id has its fields
replaced; `none` when the loop ends without a match. -/
def Menu.editLoop (id : Int) (name category : String) (price : ℚ) (available : Bool) :
    List MenuItem → Option (List MenuItem)
  | [] => none
  | mi :: rest =>
    if mi.id = id then
      some ({ mi with name := name, category := category, price := price,
                      available := available } :: rest)
    else
      match Menu.editLoop id name category price available rest with
      | none => none
      | some rest1 => some (mi :: rest1)

/-- `Menu::editItem`. -/
def Menu.editItem (m : Menu) (id : Int) (name category : String) (price : ℚ)
    (available : Bool) : Menu × Bool :=
  match Menu.editLoop id name category price available m.items with
  | none => (m, false)
  | some items1 => (⟨items1, m.nextId⟩, true)

/-- `Menu::removeItem`, with `remove_if` and `erase` as in `Cart.remove`. -/
def Menu.removeItem (m : Menu) (id : Int) : Menu × Bool :=
  let kept := m.items.filter (fun mi => !decide (mi.id = id))
  if kept.length = m.items.length then (m, false) else (⟨kept, m.nextId⟩, true)

/-! ## Orders -/

/-- The class `Orders`: the next order identifier. -/
structure Orders where
  nextOrderId : Int
  deriving DecidableEq

/-- The `while (getline(fin, line))` loop of the constructor of `Orders`;
`none` stands for `out_of_range` thrown by `stoi`. -/
def Orders.scan : Bool → List String → Int → Option Int
  | _, [], n => some n
  | first, line :: rest, n =>
    if first then Orders.scan false rest n
    else if line = "" then Orders.scan false rest n
    else
      let idS := (getField line.data).1
      if idS ≠ "" ∧ allDigits idS = true then
        match stoi idS with
        | none => none
        | some v => Orders.scan false rest (max n (wrapInt32 (v + 1)))
      else Orders.scan false rest n

/-- The constructor `Orders::Orders` on the content of `orders.csv`. -/
def Orders.new (file : Option (List String)) : Option Orders :=
  match file with
  | none => some ⟨1⟩
  | some lines =>
    match Orders.scan true lines 1 with
    | none => none
    | some n => some ⟨n⟩

/-- The header line `Orders::save` writes into a new `orders.csv`. -/
def Orders.header : String :=
  "orderId,timestamp,totalQty,subtotal,discount,gst,delivery,total,coupon"

/-- `Orders::save`: the identifier returned, the state after the call and the
content of `orders.csv` after the call.  `tail` is the text of the record
after the identifier and its comma (time stamp, quantities and amounts). -/
def Orders.save (o : Orders) (file : Option (List String)) (tail : String) :
    Int × Orders × List String :=
  let lines := match file with
    | none => [Orders.header]
    | some ls => ls
  let id := o.nextOrderId
  (id, ⟨wrapInt32 (o.nextOrderId + 1)⟩, lines ++ [toString id ++ "," ++ tail])

/-! ## Sequences of operations -/

/-- One call on a cart. -/
inductive CartOp where
  | add (mi : MenuItem) (qty : Int)
  | updateQty (id qty : Int)
  | remove (id : Int)
  | clear

/-- The cart after one call. -/
def Cart.step (c : Cart) : CartOp → Cart
  | .add mi qty => c.add mi qty
  | .updateQty id qty => (c.updateQty id qty).1
  | .remove id => (c.remove id).1
  | .clear => c.clear

/-- The cart after a sequence of calls. -/
def Cart.run (c : Cart) (ops : List CartOp) : Cart := ops.foldl Cart.step c

/-- Cart well-formedness: no identifier on two lines, every quantity positive. -/
def Cart.WellFormed (c : Cart) : Prop :=
  (c.items.map (fun ci => ci.item.id)).Nodup ∧ ∀ ci ∈ c.items, 0 < ci.qty

/-- One administrative call on the catalog. -/
inductive MenuOp where
  | addItem (name category : String) (price : ℚ) (available : Bool)
  | editItem (id : Int) (name category : String) (price : ℚ) (available : Bool)
  | removeItem (id : Int)

/-- The catalog after one administrative call. -/
def Menu.step (m : Menu) : MenuOp → Menu
  | .addItem name category price available => m.addItem name category price available
  | .editItem id name category price available =>
    (m.editItem id name category price available).1
  | .removeItem id => (m.removeItem id).1

/-- The catalog after a sequence of administrative calls. -/
def Menu.run (m : Menu) (ops : List MenuOp) : Menu := ops.foldl Menu.step m

/-- The number of `addItem` calls in a sequence of administrative calls. -/
def Menu.addCount : List MenuOp → Nat
  | [] => 0
  | .addItem _ _ _ _ :: rest => Menu.addCount rest + 1
  | _ :: rest => Menu.addCount rest

/-- Every identifier in the catalog is below the next identifier. -/
def Menu.IdsBelowNext (m : Menu) : Prop := ∀ x ∈ m.items, x.id < m.nextId

/-- The unit price snapshotted in the first line with the id, when a line has
the id. -/
def Cart.snapshotPrice (id : Int) : List CartItem → Option ℚ
  | [] => none
  | ci :: rest => if ci.item.id = id then some ci.item.price else Cart.snapshotPrice id rest

/-! ## The promotion rule in the specification's words -/

/-- Equality of two strings ignoring letter case: the strings agree once
every letter is lowered. -/
def eqIgnoreCase (a b : String) : Prop :=
  a.data.map Char.toLower = b.data.map Char.toLower

instance (a b : String) : Decidable (eqIgnoreCase a b) := by
  unfold eqIgnoreCase; infer_instance

/-- The discount of the Promotion Resolver as the specification words it. -/
def promotionDiscount (code : String) (subtotal : ℚ) : ℚ :=
  if eqIgnoreCase code "SAVE10" then min (subtotal * (10 / 100)) 150
  else if eqIgnoreCase code "FLAT50" then 50
  else 0


/-! ## Auxiliary lemmas: machine numbers -/

theorem wrapInt32_of_fits (x : Int) (h1 : -2147483648 ≤ x) (h2 : x ≤ 2147483647) :
    wrapInt32 x = x := by
  unfold wrapInt32
  omega

theorem roundHalfEven_near (y : ℚ) (m : ℤ) (h : |y - m| < 1 / 2) : roundHalfEven y = m := by
  rw [abs_lt] at h
  obtain ⟨h1, h2⟩ := h
  unfold roundHalfEven
  by_cases hm : (m : ℚ) ≤ y
  · have hf : ⌊y⌋ = m := by
      rw [Int.floor_eq_iff]
      constructor
      · exact hm
      · linarith
    simp only [hf]
    rw [if_pos h2]
  · push_neg at hm
    have hf : ⌊y⌋ = m - 1 := by
      rw [Int.floor_eq_iff]
      push_cast
      constructor
      · linarith
      · linarith
    simp only [hf]
    push_cast
    have h3 : ¬ (y - (m - 1) < 1 / 2) := by linarith
    have h4 : (1 : ℚ) / 2 < y - (m - 1) := by linarith
    rw [if_neg h3, if_pos h4]
    ring

theorem roundHalfEven_intCast (m : ℤ) : roundHalfEven (m : ℚ) = m :=
  roundHalfEven_near (m : ℚ) m (by simp)

theorem roundHalfEven_tie (y : ℚ) (f : ℤ) (h : y = f + 1 / 2) :
    roundHalfEven y = if f % 2 = 0 then f else f + 1 := by
  have hf : ⌊y⌋ = f := by
    rw [Int.floor_eq_iff]
    constructor
    · linarith
    · linarith
  unfold roundHalfEven
  simp only [hf]
  have h3 : ¬ (y - f < 1 / 2) := by linarith
  have h4 : ¬ ((1 : ℚ) / 2 < y - f) := by linarith
  rw [if_neg h3, if_neg h4]

theorem log_two_eq (x : ℚ) (k : ℤ) (hlo : (2 : ℚ) ^ k ≤ |x|) (hhi : |x| < (2 : ℚ) ^ (k + 1)) :
    Int.log 2 |x| = k := by
  have hpos : 0 < |x| := lt_of_lt_of_le (by positivity) hlo
  have h1 : k ≤ Int.log 2 |x| := by
    rw [← Int.zpow_le_iff_le_log (by norm_num) hpos]
    simpa using hlo
  have h2 : Int.log 2 |x| < k + 1 := by
    rw [← Int.lt_zpow_iff_log_lt (by norm_num) hpos]
    simpa using hhi
  omega

/-- The rounding of a number in the binade `[2^k, 2^(k+1))` of the normal
range, from the rounding of its significand. -/
theorem toDouble_eval (x : ℚ) (k m : ℤ) (hlo : (2 : ℚ) ^ k ≤ |x|)
    (hhi : |x| < (2 : ℚ) ^ (k + 1)) (hk : -1022 ≤ k)
    (hm : roundHalfEven (x / (2 : ℚ) ^ (k - 52)) = m) :
    toDouble x = (m : ℚ) * (2 : ℚ) ^ (k - 52) := by
  have hpos : 0 < |x| := lt_of_lt_of_le (by positivity) hlo
  have hx : x ≠ 0 := abs_pos.mp hpos
  have hlog := log_two_eq x k hlo hhi
  have he : max (k - 52) (-1074) = k - 52 := max_eq_left (by omega)
  unfold toDouble
  simp only [hx, if_false, hlog, he]
  rw [hm]

theorem toDouble_near (x : ℚ) (k m : ℤ) (hlo : (2 : ℚ) ^ k ≤ |x|)
    (hhi : |x| < (2 : ℚ) ^ (k + 1)) (hk : -1022 ≤ k)
    (hnear : |x / (2 : ℚ) ^ (k - 52) - m| < 1 / 2) :
    toDouble x = (m : ℚ) * (2 : ℚ) ^ (k - 52) :=
  toDouble_eval x k m hlo hhi hk (roundHalfEven_near _ m hnear)

/-- Integers below `2^53` in absolute value are `double` values. -/
theorem toDouble_intCast (n : ℤ) (h : |n| < 2 ^ 53) : toDouble (n : ℚ) = n := by
  by_cases hn : n = 0
  · simp [hn, toDouble]
  · have hx : (n : ℚ) ≠ 0 := by exact_mod_cast hn
    have hpos : 0 < |(n : ℚ)| := abs_pos.mpr hx
    have hlt : |(n : ℚ)| < (2 : ℚ) ^ (53 : ℤ) := by
      have h2 : ((|n| : ℤ) : ℚ) < ((2 ^ 53 : ℤ) : ℚ) := by exact_mod_cast h
      rw [Int.cast_abs] at h2
      calc |(n : ℚ)| < ((2 ^ 53 : ℤ) : ℚ) := h2
        _ = (2 : ℚ) ^ (53 : ℤ) := by norm_num
    have hlog : Int.log 2 |(n : ℚ)| < 53 := by
      rw [← Int.lt_zpow_iff_log_lt (by norm_num) hpos]
      simpa using hlt
    unfold toDouble
    simp only [hx, if_false]
    generalize hE : max (Int.log 2 |(n : ℚ)| - 52) (-1074) = e
    have he : e ≤ 0 := by
      rw [← hE]
      exact max_le (by omega) (by norm_num)
    obtain ⟨j, hj⟩ : ∃ j : ℕ, e = -(j : ℤ) := ⟨e.natAbs, by omega⟩
    subst hj
    have hdiv : (n : ℚ) / (2 : ℚ) ^ (-(j : ℤ)) = ((n * 2 ^ j : ℤ) : ℚ) := by
      rw [zpow_neg, zpow_natCast]
      push_cast
      field_simp
    rw [hdiv, roundHalfEven_intCast, zpow_neg, zpow_natCast]
    push_cast
    field_simp

theorem toDouble_natCast (n : ℕ) (h : (n : ℚ) < 2 ^ 53) : toDouble (n : ℚ) = n := by
  have h2 : (n : ℤ) < 2 ^ 53 := by exact_mod_cast h
  have h3 : |(n : ℤ)| < 2 ^ 53 := by
    rw [abs_of_nonneg (Int.natCast_nonneg n)]
    exact h2
  have h4 := toDouble_intCast (n : ℤ) h3
  simpa using h4

theorem toDouble_399 : toDouble 399 = 399 := by
  have h := toDouble_natCast 399 (by norm_num)
  simpa using h

/-! ## Auxiliary lemmas: letter case -/

theorem toLower_toUpper (c : Char) : c.toUpper.toLower = c.toLower := by
  by_cases h : 97 ≤ c.toNat ∧ c.toNat ≤ 122
  · obtain ⟨h1, h2⟩ := h
    have hc : c = Char.ofNat c.toNat := (Char.ofNat_toNat c).symm
    generalize c.toNat = n at *
    subst hc
    interval_cases n <;> rfl
  · have hu : c.toUpper = c := by
      unfold Char.toUpper
      simp only [ge_iff_le]
      rw [if_neg h]
    rw [hu]

theorem toUpper_toLower (c : Char) : c.toLower.toUpper = c.toUpper := by
  by_cases h : 65 ≤ c.toNat ∧ c.toNat ≤ 90
  · obtain ⟨h1, h2⟩ := h
    have hc : c = Char.ofNat c.toNat := (Char.ofNat_toNat c).symm
    generalize c.toNat = n at *
    subst hc
    interval_cases n <;> rfl
  · have hl : c.toLower = c := by
      unfold Char.toLower
      simp only [ge_iff_le]
      rw [if_neg h]
    rw [hl]

theorem map_toUpper_eq_iff (a b : List Char) :
    a.map Char.toUpper = b.map Char.toUpper ↔ a.map Char.toLower = b.map Char.toLower := by
  constructor
  · intro h
    have h2 := congrArg (List.map Char.toLower) h
    simpa [List.map_map, Function.comp_def, toLower_toUpper] using h2
  · intro h
    have h2 := congrArg (List.map Char.toUpper) h
    simpa [List.map_map, Function.comp_def, toUpper_toLower] using h2

/-- The upper-cased code equals a word written in capitals exactly when the
code equals the word ignoring letter case. -/
theorem upperCase_eq_iff (code word : String) (hw : upperCase word = word) :
    upperCase code = word ↔ eqIgnoreCase code word := by
  unfold eqIgnoreCase
  rw [← map_toUpper_eq_iff]
  have hw2 : word.data.map Char.toUpper = word.data := by
    have := congrArg String.data hw
    simpa [upperCase] using this
  rw [hw2]
  constructor
  · intro h
    have := congrArg String.data h
    simpa [upperCase] using this
  · intro h
    unfold upperCase
    rw [h]

theorem stdMin_eq_min (a b : ℚ) : stdMin a b = min a b := by
  unfold stdMin
  split_ifs with h
  · exact (min_eq_right h.le).symm
  · exact (min_eq_left (not_lt.mp h)).symm

theorem stdMax_eq_max (a b : ℚ) : stdMax a b = max a b := by
  unfold stdMax
  split_ifs with h
  · exact (max_eq_right h.le).symm
  · exact (max_eq_left (not_lt.mp h)).symm

theorem applyCoupon_eq (code : String) (subtotal : ℚ) :
    Checkout.applyCoupon code subtotal
      = (subtotal - promotionDiscount code subtotal, promotionDiscount code subtotal) := by
  have h1 : upperCase code = "SAVE10" ↔ eqIgnoreCase code "SAVE10" :=
    upperCase_eq_iff code "SAVE10" (by decide)
  have h2 : upperCase code = "FLAT50" ↔ eqIgnoreCase code "FLAT50" :=
    upperCase_eq_iff code "FLAT50" (by decide)
  unfold Checkout.applyCoupon promotionDiscount
  simp only [h1, h2, stdMin_eq_min]
  by_cases e1 : eqIgnoreCase code "SAVE10"
  · simp only [e1, if_true]
    norm_num
  · by_cases e2 : eqIgnoreCase code "FLAT50"
    · simp only [e1, e2, if_true, if_false]
      norm_num
    · simp only [e1, e2, if_false]
      norm_num

theorem compute_unfold (cart : Cart) (code : String) :
    Checkout.compute cart code =
      { subtotal := cart.subtotal,
        discount := if code = "" then 0 else (Checkout.applyCoupon code cart.subtotal).2,
        gst := max 0 ((if code = "" then cart.subtotal
                        else (Checkout.applyCoupon code cart.subtotal).1) * (5 / 100)),
        delivery := if cart.subtotal < 399 then 35 else 0,
        total := max 0 ((if code = "" then cart.subtotal
                          else (Checkout.applyCoupon code cart.subtotal).1)
                    + max 0 ((if code = "" then cart.subtotal
                        else (Checkout.applyCoupon code cart.subtotal).1) * (5 / 100))
                    + (if cart.subtotal < 399 then 35 else 0)),
        coupon := code } := by
  unfold Checkout.compute
  simp only [stdMax_eq_max]
  by_cases hc : code = ""
  · simp only [hc, ne_eq, not_true_eq_false, if_false, if_true]
    norm_num
  · simp only [hc, ne_eq, not_false_eq_true, if_true, if_false]
    norm_num

/-! ## Billing -/

theorem Cart.subtotal_single (it : MenuItem) (q : Int) :
    (Cart.mk [⟨it, q⟩]).subtotal = toDouble (toDouble (it.price * (q : ℚ))) := by
  simp [Cart.subtotal]

theorem toDouble_2_28 : toDouble 2.28 = 5134103575202365 / 2251799813685248 := by
  rw [toDouble_near 2.28 1 5134103575202365 (by norm_num [abs_of_pos])
    (by norm_num [abs_of_pos]) (by norm_num) (by norm_num [abs_lt])]
  norm_num

theorem toDouble_2_28_times_175 :
    toDouble (5134103575202365 / 2251799813685248 * 175)
      = 7019282231721983 / 17592186044416 := by
  rw [toDouble_near _ 8 7019282231721983 (by norm_num [abs_of_pos])
    (by norm_num [abs_of_pos]) (by norm_num) (by norm_num [abs_lt])]
  norm_num

theorem toDouble_below_399 :
    toDouble (7019282231721983 / 17592186044416) = 7019282231721983 / 17592186044416 := by
  rw [toDouble_near _ 8 7019282231721983 (by norm_num [abs_of_pos])
    (by norm_num [abs_of_pos]) (by norm_num) (by norm_num [abs_lt])]
  norm_num

theorem toDouble_398_99 : toDouble 398.99 = 1754776577465385 / 4398046511104 := by
  rw [toDouble_near 398.99 8 7019106309861540 (by norm_num [abs_of_pos])
    (by norm_num [abs_of_pos]) (by norm_num) (by norm_num [abs_lt])]
  norm_num

theorem toDouble_398_99_fixed :
    toDouble (1754776577465385 / 4398046511104) = 1754776577465385 / 4398046511104 := by
  rw [toDouble_near _ 8 7019106309861540 (by norm_num [abs_of_pos])
    (by norm_num [abs_of_pos]) (by norm_num) (by norm_num [abs_lt])]
  norm_num

theorem toDouble_79_8 : toDouble 79.8 = 5615425785377587 / 70368744177664 := by
  rw [toDouble_near 79.8 6 5615425785377587 (by norm_num [abs_of_pos])
    (by norm_num [abs_of_pos]) (by norm_num) (by norm_num [abs_lt])]
  norm_num

theorem toDouble_79_8_times_5 :
    toDouble (5615425785377587 / 70368744177664 * 5) = 399 := by
  rw [toDouble_near _ 8 7019282231721984 (by norm_num [abs_of_pos])
    (by norm_num [abs_of_pos]) (by norm_num) (by norm_num [abs_lt])]
  norm_num

/-- C3 as stated fails: the catalog price 2.28 taken 175 times is exactly
399.00 in decimal arithmetic, yet `Cart::subtotal` returns the `double`
398.99999999999994 for that cart (the product of the `double` nearest to 2.28
and 175, rounded), which is below 399, and `Checkout::compute` charges the
delivery fee 35 and not 0. -/
theorem delivery_decimal_counterexample :
    (2.28 : ℚ) * 175 = 399 ∧
    (Cart.mk [⟨⟨9, "Samosa", "Snacks", toDouble 2.28, true⟩, 175⟩]).subtotal
      = 7019282231721983 / 17592186044416 ∧
    (Checkout.compute (Cart.mk [⟨⟨9, "Samosa", "Snacks", toDouble 2.28, true⟩, 175⟩])
        "").delivery = 35 ∧
    ¬ (Checkout.compute (Cart.mk [⟨⟨9, "Samosa", "Snacks", toDouble 2.28, true⟩, 175⟩])
        "").delivery = 0 := by
  have hs : (Cart.mk [⟨⟨9, "Samosa", "Snacks", toDouble 2.28, true⟩, 175⟩]).subtotal
      = 7019282231721983 / 17592186044416 := by
    rw [Cart.subtotal_single]
    show toDouble (toDouble (toDouble 2.28 * ((175 : ℤ) : ℚ))) = _
    rw [toDouble_2_28]
    have hc : ((175 : ℤ) : ℚ) = 175 := by norm_num
    rw [hc, toDouble_2_28_times_175, toDouble_below_399]
  have hd : (Checkout.compute (Cart.mk [⟨⟨9, "Samosa", "Snacks", toDouble 2.28, true⟩, 175⟩])
        "").delivery = 35 := by
    rw [compute_unfold, hs]
    norm_num
  refine ⟨by norm_num, hs, hd, ?_⟩
  rw [hd]
  norm_num

/-- C3, amended: for every cart and promotion code, the delivery fee of the
bill is 35 when the `double` that `Cart::subtotal` returns is below 399 and 0
otherwise, whatever the code and the discounted subtotal: a returned subtotal
of exactly 399 has fee 0, also with `FLAT50` bringing the discounted subtotal
to 349, and a returned subtotal of 398.99 (the `double` nearest to it) has
fee 35.  Five units at 79.8 return exactly 399 and have fee 0. -/
theorem compute_delivery (cart : Cart) (code : String) :
    (Checkout.compute cart code).delivery = (if cart.subtotal < 399 then 35 else 0) ∧
    (cart.subtotal = 399 → (Checkout.compute cart code).delivery = 0) ∧
    (cart.subtotal = toDouble 398.99 → (Checkout.compute cart code).delivery = 35) ∧
    Checkout.compute ⟨[⟨⟨2, "Farmhouse Pizza", "Pizza", 399.00, true⟩, 1⟩]⟩ "FLAT50"
      = ⟨399, 50, 17.45, 0, 366.45, "FLAT50"⟩ ∧
    (Cart.mk [⟨⟨2, "Farmhouse Pizza", "Pizza", toDouble 398.99, true⟩, 1⟩]).subtotal
      = toDouble 398.99 ∧
    (Checkout.compute ⟨[⟨⟨2, "Farmhouse Pizza", "Pizza", toDouble 398.99, true⟩, 1⟩]⟩
        "").delivery = 35 ∧
    (Cart.mk [⟨⟨5, "Veg Biryani", "Rice", toDouble 79.8, true⟩, 5⟩]).subtotal = 399 ∧
    (Checkout.compute ⟨[⟨⟨5, "Veg Biryani", "Rice", toDouble 79.8, true⟩, 5⟩]⟩
        "").delivery = 0 := by
  have hd : ∀ (c : Cart) (k : String), (Checkout.compute c k).delivery
      = (if c.subtotal < 399 then 35 else 0) := by
    intro c k
    rw [compute_unfold]
  have hne : ¬ ("FLAT50" = "") := by decide
  have h1 : ¬ eqIgnoreCase "FLAT50" "SAVE10" := by decide
  have h2 : eqIgnoreCase "FLAT50" "FLAT50" := by decide
  have h398 : toDouble 398.99 < 399 := by
    rw [toDouble_398_99]
    norm_num
  have hs399 : (Cart.mk [⟨⟨2, "Farmhouse Pizza", "Pizza", 399.00, true⟩, 1⟩]).subtotal = 399 := by
    rw [Cart.subtotal_single]
    norm_num [toDouble_399]
  have hs398 : (Cart.mk [⟨⟨2, "Farmhouse Pizza", "Pizza", toDouble 398.99, true⟩, 1⟩]).subtotal
      = toDouble 398.99 := by
    rw [Cart.subtotal_single]
    show toDouble (toDouble (toDouble 398.99 * ((1 : ℤ) : ℚ))) = _
    have hc : ((1 : ℤ) : ℚ) = 1 := by norm_num
    rw [hc, mul_one, toDouble_398_99, toDouble_398_99_fixed, toDouble_398_99_fixed]
  have hs79 : (Cart.mk [⟨⟨5, "Veg Biryani", "Rice", toDouble 79.8, true⟩, 5⟩]).subtotal
      = 399 := by
    rw [Cart.subtotal_single]
    show toDouble (toDouble (toDouble 79.8 * ((5 : ℤ) : ℚ))) = _
    have hc : ((5 : ℤ) : ℚ) = 5 := by norm_num
    rw [hc, toDouble_79_8, toDouble_79_8_times_5, toDouble_399]
  refine ⟨hd cart code, ?_, ?_, ?_, hs398, ?_, hs79, ?_⟩
  · intro h; rw [hd, h]; norm_num
  · intro h; rw [hd, h, if_pos h398]
  · rw [compute_unfold, applyCoupon_eq, hs399]
    simp only [hne, if_false, promotionDiscount, h1, h2, if_true]
    norm_num
  · rw [hd, hs398, if_pos h398]
  · rw [hd, hs79]; norm_num

/-! ## Auxiliary lemmas: cart -/

theorem filter_length_eq_iff {α : Type} (p : α → Bool) (l : List α) :
    (l.filter p).length = l.length ↔ ∀ a ∈ l, p a = true := by
  induction l with
  | nil => simp
  | cons a t ih =>
    by_cases h : p a = true
    · simp [List.filter_cons, h, ih]
    · have hlt : (t.filter p).length < t.length + 1 :=
        Nat.lt_succ_of_le (List.length_filter_le p t)
      have hf : (a :: t).filter p = t.filter p := by simp [List.filter_cons, h]
      rw [hf]
      constructor
      · intro he
        simp only [List.length_cons] at he
        omega
      · intro hall
        exact absurd (hall a (List.mem_cons_self a t)) h

theorem Cart.remove_items (c : Cart) (id : Int) :
    (c.remove id).1.items = c.items.filter (fun ci => !decide (ci.item.id = id)) := by
  unfold Cart.remove
  by_cases h : (c.items.filter (fun ci => !decide (ci.item.id = id))).length = c.items.length
  · simp only [h, if_true]
    exact (List.filter_eq_self.mpr ((filter_length_eq_iff _ _).mp h)).symm
  · simp only [h, if_false]

theorem Cart.remove_false_iff (c : Cart) (id : Int) :
    (c.remove id).2 = false ↔ ∀ ci ∈ c.items, ci.item.id ≠ id := by
  unfold Cart.remove
  by_cases h : (c.items.filter (fun ci => !decide (ci.item.id = id))).length = c.items.length
  · simp only [h, if_true, true_iff]
    intro ci hci
    have := (filter_length_eq_iff _ _).mp h ci hci
    simpa using this
  · simp only [h, if_false, Bool.true_eq_false, false_iff]
    intro hall
    apply h
    apply (filter_length_eq_iff _ _).mpr
    intro ci hci
    simpa using hall ci hci

theorem Cart.remove_unchanged (c : Cart) (id : Int) (h : (c.remove id).2 = false) :
    (c.remove id).1 = c := by
  unfold Cart.remove at h ⊢
  by_cases hl : (c.items.filter (fun ci => !decide (ci.item.id = id))).length = c.items.length
  · simp only [hl, if_true]
  · simp only [hl, if_false] at h
    exact absurd h (by decide)

theorem Cart.updateQtyLoop_eq (c : Cart) (id qty : Int) (pre rest : List CartItem) :
    Cart.updateQtyLoop c id qty pre rest =
      if ∃ ci ∈ rest, ci.item.id = id then
        (if qty ≤ 0 then ((c.remove id).1, true)
         else (⟨pre ++ Cart.setQty id qty rest⟩, true))
      else (c, false) := by
  induction rest generalizing pre with
  | nil => simp [Cart.updateQtyLoop]
  | cons ci rest ih =>
    by_cases h : ci.item.id = id
    · simp [Cart.updateQtyLoop, Cart.setQty, h]
    · simp [Cart.updateQtyLoop, Cart.setQty, h, ih]

theorem Cart.updateQty_eq (c : Cart) (id qty : Int) :
    c.updateQty id qty =
      if ∃ ci ∈ c.items, ci.item.id = id then
        (if qty ≤ 0 then ((c.remove id).1, true)
         else (⟨Cart.setQty id qty c.items⟩, true))
      else (c, false) := by
  unfold Cart.updateQty
  rw [Cart.updateQtyLoop_eq]
  simp

theorem Cart.updateQty_false_iff (c : Cart) (id qty : Int) :
    (c.updateQty id qty).2 = false ↔ ∀ ci ∈ c.items, ci.item.id ≠ id := by
  rw [Cart.updateQty_eq]
  by_cases h : ∃ ci ∈ c.items, ci.item.id = id
  · simp only [h, if_true]
    have hn : ¬ ∀ ci ∈ c.items, ci.item.id ≠ id := by
      push_neg; exact h
    by_cases hq : qty ≤ 0 <;> simp [hq, hn]
  · simp only [h, if_false, true_iff]
    push_neg at h
    exact h

theorem Cart.addLoop_ids (mi : MenuItem) (qty : Int) (l : List CartItem) :
    (Cart.addLoop mi qty l).map (fun ci => ci.item.id) =
      if mi.id ∈ l.map (fun ci => ci.item.id) then l.map (fun ci => ci.item.id)
      else l.map (fun ci => ci.item.id) ++ [mi.id] := by
  induction l with
  | nil => simp [Cart.addLoop]
  | cons ci rest ih =>
    by_cases h : ci.item.id = mi.id
    · simp [Cart.addLoop, h]
    · have h2 : ¬ mi.id = ci.item.id := fun e => h e.symm
      simp only [Cart.addLoop, h, if_false, List.map_cons, ih, List.mem_cons, h2, false_or]
      split_ifs <;> simp

theorem Cart.addLoop_qty_pos (mi : MenuItem) (qty : Int) (hq : 0 < qty) (l : List CartItem)
    (hl : ∀ ci ∈ l, 0 < ci.qty) : ∀ ci ∈ Cart.addLoop mi qty l, 0 < ci.qty := by
  induction l with
  | nil =>
    intro ci hci
    simp only [Cart.addLoop, List.mem_singleton] at hci
    rw [hci]; exact hq
  | cons a rest ih =>
    have ha : 0 < a.qty := hl a (List.mem_cons_self a rest)
    have hr : ∀ ci ∈ rest, 0 < ci.qty := fun ci hci => hl ci (List.mem_cons_of_mem a hci)
    intro ci hci
    by_cases h : a.item.id = mi.id
    · simp only [Cart.addLoop, h, if_true, List.mem_cons] at hci
      rcases hci with e | e
      · rw [e]; show 0 < a.qty + qty; omega
      · exact hr ci e
    · simp only [Cart.addLoop, h, if_false, List.mem_cons] at hci
      rcases hci with e | e
      · rw [e]; exact ha
      · exact ih hr ci e

theorem Cart.setQty_ids (id qty : Int) (l : List CartItem) :
    (Cart.setQty id qty l).map (fun ci => ci.item.id) = l.map (fun ci => ci.item.id) := by
  induction l with
  | nil => rfl
  | cons a rest ih =>
    by_cases h : a.item.id = id
    · simp [Cart.setQty, h]
    · simp [Cart.setQty, h, ih]

theorem Cart.setQty_qty_pos (id qty : Int) (hq : 0 < qty) (l : List CartItem)
    (hl : ∀ ci ∈ l, 0 < ci.qty) : ∀ ci ∈ Cart.setQty id qty l, 0 < ci.qty := by
  induction l with
  | nil => intro ci hci; simp [Cart.setQty] at hci
  | cons a rest ih =>
    have ha : 0 < a.qty := hl a (List.mem_cons_self a rest)
    have hr : ∀ ci ∈ rest, 0 < ci.qty := fun ci hci => hl ci (List.mem_cons_of_mem a hci)
    intro ci hci
    by_cases h : a.item.id = id
    · simp only [Cart.setQty, h, if_true, List.mem_cons] at hci
      rcases hci with e | e
      · rw [e]; exact hq
      · exact hr ci e
    · simp only [Cart.setQty, h, if_false, List.mem_cons] at hci
      rcases hci with e | e
      · rw [e]; exact ha
      · exact ih hr ci e

theorem Cart.wellFormed_add (c : Cart) (mi : MenuItem) (qty : Int) (h : c.WellFormed) :
    (c.add mi qty).WellFormed := by
  unfold Cart.add
  by_cases hq : qty ≤ 0
  · simpa [hq] using h
  · simp only [hq, if_false]
    refine ⟨?_, Cart.addLoop_qty_pos mi qty (by omega) c.items h.2⟩
    show ((Cart.addLoop mi qty c.items).map (fun ci => ci.item.id)).Nodup
    rw [Cart.addLoop_ids]
    by_cases hm : mi.id ∈ c.items.map (fun ci => ci.item.id)
    · simp only [hm, if_true]; exact h.1
    · simp only [hm, if_false]
      exact List.Nodup.append h.1 (List.nodup_singleton _)
        (List.disjoint_singleton.mpr hm)

theorem Cart.wellFormed_remove (c : Cart) (id : Int) (h : c.WellFormed) :
    (c.remove id).1.WellFormed := by
  unfold Cart.WellFormed
  rw [Cart.remove_items]
  refine ⟨?_, ?_⟩
  · exact List.Nodup.sublist (List.Sublist.map _ (List.filter_sublist _)) h.1
  · intro ci hci
    exact h.2 ci (List.mem_filter.mp hci).1

theorem Cart.wellFormed_updateQty (c : Cart) (id qty : Int) (h : c.WellFormed) :
    (c.updateQty id qty).1.WellFormed := by
  rw [Cart.updateQty_eq]
  by_cases he : ∃ ci ∈ c.items, ci.item.id = id
  · simp only [he, if_true]
    by_cases hq : qty ≤ 0
    · simp only [hq, if_true]
      exact Cart.wellFormed_remove c id h
    · simp only [hq, if_false]
      refine ⟨?_, Cart.setQty_qty_pos id qty (by omega) c.items h.2⟩
      show ((Cart.setQty id qty c.items).map (fun ci => ci.item.id)).Nodup
      rw [Cart.setQty_ids]
      exact h.1
  · simp only [he, if_false]
    exact h

theorem Cart.wellFormed_step (c : Cart) (op : CartOp) (h : c.WellFormed) :
    (c.step op).WellFormed := by
  cases op with
  | add mi qty => exact Cart.wellFormed_add c mi qty h
  | updateQty id qty => exact Cart.wellFormed_updateQty c id qty h
  | remove id => exact Cart.wellFormed_remove c id h
  | clear => exact ⟨List.nodup_nil, fun ci hci => absurd hci (List.not_mem_nil ci)⟩

theorem Cart.wellFormed_run (ops : List CartOp) (c : Cart) (h : c.WellFormed) :
    (c.run ops).WellFormed := by
  induction ops generalizing c with
  | nil => exact h
  | cons op rest ih => exact ih (c.step op) (Cart.wellFormed_step c op h)

theorem Cart.addLoop_addLoop (mi : MenuItem) (q1 q2 : Int) (l : List CartItem) :
    Cart.addLoop mi q2 (Cart.addLoop mi q1 l) = Cart.addLoop mi (q1 + q2) l := by
  induction l with
  | nil => simp [Cart.addLoop]
  | cons a rest ih =>
    by_cases h : a.item.id = mi.id
    · simp [Cart.addLoop, h, add_assoc]
    · simp [Cart.addLoop, h, ih]

theorem Cart.remove_true_iff (c : Cart) (id : Int) :
    (c.remove id).2 = true ↔ ∃ ci ∈ c.items, ci.item.id = id := by
  have h := Cart.remove_false_iff c id
  constructor
  · intro ht
    by_contra hne
    push_neg at hne
    rw [h.mpr hne] at ht
    exact absurd ht (by decide)
  · intro he
    cases hb : (c.remove id).2 with
    | true => rfl
    | false =>
      obtain ⟨ci, hci, hid⟩ := he
      exact absurd hid (h.mp hb ci hci)

/-! ## Auxiliary lemmas: catalog -/

theorem Menu.editLoop_none_iff (id : Int) (name category : String) (price : ℚ)
    (available : Bool) (l : List MenuItem) :
    Menu.editLoop id name category price available l = none ↔ ∀ x ∈ l, x.id ≠ id := by
  induction l with
  | nil => simp [Menu.editLoop]
  | cons a rest ih =>
    by_cases h : a.id = id
    · simp [Menu.editLoop, h]
    · cases hr : Menu.editLoop id name category price available rest with
      | none =>
        have hall := ih.mp hr
        simp only [Menu.editLoop, h, if_false, hr, List.mem_cons, forall_eq_or_imp, true_iff]
        exact ⟨h, hall⟩
      | some r =>
        have hn : ¬ ∀ x ∈ rest, x.id ≠ id := fun hall => by
          rw [ih.mpr hall] at hr
          exact absurd hr (by simp)
        simp only [Menu.editLoop, h, if_false, hr, List.mem_cons, forall_eq_or_imp]
        constructor
        · intro hc; exact absurd hc (by simp)
        · intro hc; exact absurd hc.2 hn

theorem Menu.editItem_false_iff (m : Menu) (id : Int) (name category : String) (price : ℚ)
    (available : Bool) :
    (m.editItem id name category price available).2 = false ↔ ∀ x ∈ m.items, x.id ≠ id := by
  rw [← Menu.editLoop_none_iff id name category price available]
  unfold Menu.editItem
  cases Menu.editLoop id name category price available m.items <;> simp

theorem Menu.editItem_unchanged (m : Menu) (id : Int) (name category : String) (price : ℚ)
    (available : Bool) (h : (m.editItem id name category price available).2 = false) :
    (m.editItem id name category price available).1 = m := by
  unfold Menu.editItem at h ⊢
  cases he : Menu.editLoop id name category price available m.items with
  | none => rfl
  | some r => rw [he] at h; simp at h

theorem Menu.removeItem_items (m : Menu) (id : Int) :
    (m.removeItem id).1.items = m.items.filter (fun mi => !decide (mi.id = id)) := by
  unfold Menu.removeItem
  by_cases h : (m.items.filter (fun mi => !decide (mi.id = id))).length = m.items.length
  · simp only [h, if_true]
    exact (List.filter_eq_self.mpr ((filter_length_eq_iff _ _).mp h)).symm
  · simp only [h, if_false]

theorem Menu.removeItem_nextId (m : Menu) (id : Int) :
    (m.removeItem id).1.nextId = m.nextId := by
  unfold Menu.removeItem
  by_cases h : (m.items.filter (fun mi => !decide (mi.id = id))).length = m.items.length
  · simp only [h, if_true]
  · simp only [h, if_false]

theorem Menu.removeItem_false_iff (m : Menu) (id : Int) :
    (m.removeItem id).2 = false ↔ ∀ x ∈ m.items, x.id ≠ id := by
  unfold Menu.removeItem
  by_cases h : (m.items.filter (fun mi => !decide (mi.id = id))).length = m.items.length
  · simp only [h, if_true, true_iff]
    intro x hx
    have := (filter_length_eq_iff _ _).mp h x hx
    simpa using this
  · simp only [h, if_false, Bool.true_eq_false, false_iff]
    intro hall
    apply h
    apply (filter_length_eq_iff _ _).mpr
    intro x hx
    simpa using hall x hx

theorem Menu.removeItem_unchanged (m : Menu) (id : Int) (h : (m.removeItem id).2 = false) :
    (m.removeItem id).1 = m := by
  unfold Menu.removeItem at h ⊢
  by_cases hl : (m.items.filter (fun mi => !decide (mi.id = id))).length = m.items.length
  · simp only [hl, if_true]
  · simp only [hl, if_false] at h
    exact absurd h (by decide)

/-! ## Cart -/

/-- C4: every cart reached from the empty cart by a finite sequence of
`add`, `updateQty`, `remove` and `clear` calls with arbitrary items, ids and
integer quantities has no two lines with the same item identifier and only
positive quantities. -/
theorem cart_invariant (ops : List CartOp) :
    ((Cart.empty.run ops).items.map (fun ci => ci.item.id)).Nodup ∧
    ∀ ci ∈ (Cart.empty.run ops).items, 0 < ci.qty :=
  Cart.wellFormed_run ops Cart.empty
    ⟨List.nodup_nil, fun ci hci => absurd hci (List.not_mem_nil ci)⟩

/-- C5: for every cart, item and positive quantities `q1` and `q2`, adding
the item with `q1` and then again with `q2` gives exactly the cart that one
`add` with `q1 + q2` gives, hence the same subtotal and total quantity. -/
theorem add_twice (c : Cart) (m : MenuItem) (q1 q2 : Int) (h1 : 0 < q1) (h2 : 0 < q2) :
    (c.add m q1).add m q2 = c.add m (q1 + q2) ∧
    ((c.add m q1).add m q2).subtotal = (c.add m (q1 + q2)).subtotal ∧
    ((c.add m q1).add m q2).totalQty = (c.add m (q1 + q2)).totalQty := by
  have key : (c.add m q1).add m q2 = c.add m (q1 + q2) := by
    have n1 : ¬ q1 ≤ 0 := by omega
    have n2 : ¬ q2 ≤ 0 := by omega
    have n3 : ¬ q1 + q2 ≤ 0 := by omega
    simp only [Cart.add, n1, n2, n3, if_false, Cart.addLoop_addLoop]
  exact ⟨key, by rw [key], by rw [key]⟩

/-- An instance of C5: a cart holding two coffees and one tea, to which two
and then three teas are added, holds two coffees and six teas, as after one
`add` of five teas. -/
theorem add_twice_witness :
    (0 : Int) < 2 ∧ (0 : Int) < 3 ∧
    ((Cart.mk [⟨⟨7, "Cold Coffee", "Beverages", 99, true⟩, 2⟩,
               ⟨⟨1, "Tea", "Beverages", 30, true⟩, 1⟩]).add
        ⟨1, "Tea", "Beverages", 30, true⟩ 2).add ⟨1, "Tea", "Beverages", 30, true⟩ 3
      = (Cart.mk [⟨⟨7, "Cold Coffee", "Beverages", 99, true⟩, 2⟩,
                  ⟨⟨1, "Tea", "Beverages", 30, true⟩, 1⟩]).add
          ⟨1, "Tea", "Beverages", 30, true⟩ (2 + 3) ∧
    (Cart.mk [⟨⟨7, "Cold Coffee", "Beverages", 99, true⟩, 2⟩,
              ⟨⟨1, "Tea", "Beverages", 30, true⟩, 1⟩]).add
        ⟨1, "Tea", "Beverages", 30, true⟩ (2 + 3)
      = Cart.mk [⟨⟨7, "Cold Coffee", "Beverages", 99, true⟩, 2⟩,
                 ⟨⟨1, "Tea", "Beverages", 30, true⟩, 6⟩] :=
  ⟨by decide, by decide, (add_twice _ _ 2 3 (by decide) (by decide)).1, by decide⟩

/-- C6: for every cart, id and quantity `qty ≤ 0`, `updateQty(id, qty)` and
`remove(id)` give the same cart and the same found flag; in that cart no line
has the id and the lines with another id are kept unchanged in their order. -/
theorem updateQty_nonpos (c : Cart) (id qty : Int) (hq : qty ≤ 0) :
    c.updateQty id qty = c.remove id ∧
    (c.remove id).1.items = c.items.filter (fun ci => decide (ci.item.id ≠ id)) ∧
    (∀ ci ∈ (c.remove id).1.items, ci.item.id ≠ id) ∧
    ((c.remove id).2 = true ↔ ∃ ci ∈ c.items, ci.item.id = id) := by
  have hitems : (c.remove id).1.items = c.items.filter (fun ci => decide (ci.item.id ≠ id)) := by
    rw [Cart.remove_items]
    congr 1
    funext ci
    by_cases h : ci.item.id = id <;> simp [h]
  refine ⟨?_, hitems, ?_, Cart.remove_true_iff c id⟩
  · rw [Cart.updateQty_eq]
    by_cases he : ∃ ci ∈ c.items, ci.item.id = id
    · simp only [he, if_true, hq]
      exact Prod.ext rfl ((Cart.remove_true_iff c id).mpr he).symm
    · simp only [he, if_false]
      have hf : (c.remove id).2 = false := by
        rw [Cart.remove_false_iff]
        intro ci hci hid
        exact he ⟨ci, hci, hid⟩
      exact Prod.ext (Cart.remove_unchanged c id hf).symm hf.symm
  · intro ci hci
    rw [hitems] at hci
    simpa using (List.mem_filter.mp hci).2

/-- An instance of C6: `updateQty(1, 0)` and `remove(1)` on a cart of two
lines both leave the line with id 7 alone and report the id found. -/
theorem updateQty_nonpos_witness :
    (0 : Int) ≤ 0 ∧
    (Cart.mk [⟨⟨7, "Cold Coffee", "Beverages", 99, true⟩, 2⟩,
              ⟨⟨1, "Tea", "Beverages", 30, true⟩, 1⟩]).updateQty 1 0
      = (Cart.mk [⟨⟨7, "Cold Coffee", "Beverages", 99, true⟩, 2⟩,
              ⟨⟨1, "Tea", "Beverages", 30, true⟩, 1⟩]).remove 1 ∧
    (Cart.mk [⟨⟨7, "Cold Coffee", "Beverages", 99, true⟩, 2⟩,
              ⟨⟨1, "Tea", "Beverages", 30, true⟩, 1⟩]).remove 1
      = (⟨[⟨⟨7, "Cold Coffee", "Beverages", 99, true⟩, 2⟩]⟩, true) :=
  ⟨by decide, (updateQty_nonpos _ 1 0 (by decide)).1, by decide⟩

/-- C7: `updateQty` and `remove` return false exactly when no cart line has
the id, and then leave the cart as it was; `editItem` and `removeItem` return
false exactly when no catalog item has the id, and then leave the item list
and the next identifier as they were; `add` with a quantity `≤ 0` leaves the
cart as it was. -/
theorem failed_operations_noop (c : Cart) (m : Menu) (id qty : Int) (mi : MenuItem)
    (name category : String) (price : ℚ) (available : Bool) :
    ((c.updateQty id qty).2 = false ↔ ∀ ci ∈ c.items, ci.item.id ≠ id) ∧
    ((c.updateQty id qty).2 = false → (c.updateQty id qty).1 = c) ∧
    ((c.remove id).2 = false ↔ ∀ ci ∈ c.items, ci.item.id ≠ id) ∧
    ((c.remove id).2 = false → (c.remove id).1 = c) ∧
    ((m.editItem id name category price available).2 = false
      ↔ ∀ x ∈ m.items, x.id ≠ id) ∧
    ((m.editItem id name category price available).2 = false →
      (m.editItem id name category price available).1.items = m.items ∧
      (m.editItem id name category price available).1.nextId = m.nextId) ∧
    ((m.removeItem id).2 = false ↔ ∀ x ∈ m.items, x.id ≠ id) ∧
    ((m.removeItem id).2 = false →
      (m.removeItem id).1.items = m.items ∧ (m.removeItem id).1.nextId = m.nextId) ∧
    (qty ≤ 0 → c.add mi qty = c) := by
  refine ⟨Cart.updateQty_false_iff c id qty, ?_, Cart.remove_false_iff c id,
    Cart.remove_unchanged c id, Menu.editItem_false_iff m id name category price available,
    ?_, Menu.removeItem_false_iff m id, ?_, ?_⟩
  · intro h
    have hn := (Cart.updateQty_false_iff c id qty).mp h
    rw [Cart.updateQty_eq]
    have he : ¬ ∃ ci ∈ c.items, ci.item.id = id := by
      rintro ⟨ci, hci, hid⟩
      exact hn ci hci hid
    simp only [he, if_false]
  · intro h
    rw [Menu.editItem_unchanged m id name category price available h]
    exact ⟨rfl, rfl⟩
  · intro h
    rw [Menu.removeItem_unchanged m id h]
    exact ⟨rfl, rfl⟩
  · intro h
    simp only [Cart.add, h, if_true]


/-! ## Auxiliary lemmas: identifiers -/

theorem stoi_fits (s : String) (v : Int) (h : stoi s = some v) :
    -2147483648 ≤ v ∧ v ≤ 2147483647 := by
  unfold stoi at h
  simp only at h
  split_ifs at h with h1 h2 h3 h4
  · simp only [Option.some.injEq] at h
    rw [← h]
    push_neg at h3
    exact h3
  · simp only [Option.some.injEq] at h
    rw [← h]
    push_neg at h4
    exact h4

theorem Menu.loadLoop_items_mono (stod : String → Option ℚ) (lines : List String) :
    ∀ (first : Bool) (m m1 : Menu),
      Menu.loadLoop stod first lines m = some m1 → ∀ x ∈ m.items, x ∈ m1.items := by
  induction lines with
  | nil =>
    intro first m m1 h x hx
    simp only [Menu.loadLoop, Option.some.injEq] at h
    rw [← h]; exact hx
  | cons line rest ih =>
    intro first m m1 h x hx
    unfold Menu.loadLoop at h
    by_cases hl : line = ""
    · simp only [hl, if_true] at h
      exact ih first m m1 h x hx
    · simp only [hl, if_false] at h
      split_ifs at h with hh
      · exact ih false m m1 h x hx
      · cases hs : stoi (trim (getField line.data).1) with
        | none => rw [hs] at h; simp at h
        | some id =>
          rw [hs] at h
          cases hp : stod (trim (getField (getField (getField (getField line.data).2).2).2).1) with
          | none => rw [hp] at h; simp at h
          | some price =>
            rw [hp] at h
            refine ih false _ m1 h x ?_
            exact List.mem_append_left _ hx

theorem Menu.loadLoop_idsBelowNext (stod : String → Option ℚ) (lines : List String) :
    ∀ (first : Bool) (m m1 : Menu), m.IdsBelowNext →
      Menu.loadLoop stod first lines m = some m1 →
      (∀ x ∈ m1.items, x.id < 2147483647) →
      m1.IdsBelowNext ∧ m.nextId ≤ m1.nextId := by
  induction lines with
  | nil =>
    intro first m m1 hm h _
    simp only [Menu.loadLoop, Option.some.injEq] at h
    rw [← h]; exact ⟨hm, le_refl _⟩
  | cons line rest ih =>
    intro first m m1 hm h hb
    unfold Menu.loadLoop at h
    by_cases hl : line = ""
    · simp only [hl, if_true] at h
      exact ih first m m1 hm h hb
    · simp only [hl, if_false] at h
      split_ifs at h with hh
      · exact ih false m m1 hm h hb
      · cases hs : stoi (trim (getField line.data).1) with
        | none => rw [hs] at h; simp at h
        | some id =>
          rw [hs] at h
          cases hp : stod (trim (getField (getField (getField (getField line.data).2).2).2).1) with
          | none => rw [hp] at h; simp at h
          | some price =>
            rw [hp] at h
            have hfit := stoi_fits _ id hs
            have hmem := Menu.loadLoop_items_mono stod rest false _ m1 h
              ⟨id, trim (getField (getField line.data).2).1,
                trim (getField (getField (getField line.data).2).2).1, price,
                parseAvailable
                  (trim (getField (getField (getField (getField
                    (getField line.data).2).2).2).2).1)⟩
              (List.mem_append_right _ (List.mem_singleton_self _))
            have hlt : id < 2147483647 := hb _ hmem
            have hw : wrapInt32 (id + 1) = id + 1 :=
              wrapInt32_of_fits (id + 1) (by omega) (by omega)
            have hstep := ih false _ m1 ?_ h hb
            · refine ⟨hstep.1, le_trans ?_ hstep.2⟩
              exact le_max_left _ _
            · intro x hx
              simp only [List.mem_append, List.mem_singleton] at hx
              show x.id < max m.nextId (wrapInt32 (id + 1))
              rw [hw]
              rcases hx with hx | hx
              · exact lt_of_lt_of_le (hm x hx) (le_max_left _ _)
              · rw [hx]
                exact lt_of_lt_of_le (by show id < id + 1; omega) (le_max_right _ _)

theorem Menu.load_idsBelowNext (stod : String → Option ℚ) (prev : Menu)
    (file : Option (List String)) (m0 : Menu) (b : Bool)
    (h : Menu.load stod prev file = some (m0, b))
    (hb : ∀ x ∈ m0.items, x.id < 2147483647) :
    m0.IdsBelowNext ∧ prev.nextId ≤ m0.nextId := by
  unfold Menu.load at h
  cases file with
  | none =>
    simp only [Option.some.injEq, Prod.mk.injEq] at h
    rw [← h.1]
    exact ⟨fun x hx => absurd hx (List.not_mem_nil x), le_refl _⟩
  | some lines =>
    simp only at h
    cases hl : Menu.loadLoop stod true lines ⟨[], prev.nextId⟩ with
    | none => rw [hl] at h; simp at h
    | some m1 =>
      rw [hl] at h
      simp only [Option.some.injEq, Prod.mk.injEq] at h
      rw [← h.1] at hb ⊢
      refine Menu.loadLoop_idsBelowNext stod lines true ⟨[], prev.nextId⟩ m1 ?_ hl hb
      intro x hx
      exact absurd hx (List.not_mem_nil x)

theorem Menu.seedItems_idsBelowNext : (Menu.mk Menu.seedItems 9).IdsBelowNext := by
  intro x hx
  simp only [Menu.seedItems, List.mem_cons, List.mem_singleton, List.not_mem_nil, or_false] at hx
  rcases hx with h | h | h | h | h | h | h | h <;> (rw [h]; decide)

theorem Menu.seedIfEmpty_idsBelowNext (stod : String → Option ℚ) (prev : Menu)
    (file : Option (List String)) (m0 : Menu)
    (h : Menu.seedIfEmpty stod prev file = some m0)
    (hprev : -2147483648 ≤ prev.nextId)
    (hb : ∀ x ∈ m0.items, x.id < 2147483647) :
    m0.IdsBelowNext ∧ -2147483648 ≤ m0.nextId := by
  unfold Menu.seedIfEmpty at h
  cases hl : Menu.load stod prev file with
  | none => rw [hl] at h; simp at h
  | some r =>
    obtain ⟨m1, b⟩ := r
    rw [hl] at h
    cases b with
    | true =>
      simp only [Option.some.injEq] at h
      rw [← h] at hb ⊢
      have h2 := Menu.load_idsBelowNext stod prev file m1 true hl hb
      exact ⟨h2.1, le_trans hprev h2.2⟩
    | false =>
      simp only [Option.some.injEq] at h
      rw [← h]
      exact ⟨Menu.seedItems_idsBelowNext, by decide⟩

theorem Menu.editLoop_ids (id : Int) (name category : String) (price : ℚ)
    (available : Bool) (l l1 : List MenuItem)
    (h : Menu.editLoop id name category price available l = some l1) :
    l1.map (fun x => x.id) = l.map (fun x => x.id) := by
  induction l generalizing l1 with
  | nil => simp [Menu.editLoop] at h
  | cons a rest ih =>
    by_cases ha : a.id = id
    · simp only [Menu.editLoop, ha, if_true, Option.some.injEq] at h
      rw [← h]
      simp [ha]
    · cases hr : Menu.editLoop id name category price available rest with
      | none => simp [Menu.editLoop, ha, hr] at h
      | some r =>
        simp only [Menu.editLoop, ha, if_false, hr, Option.some.injEq] at h
        rw [← h]
        simp [ih r hr]

theorem Menu.editItem_nextId (m : Menu) (id : Int) (name category : String) (price : ℚ)
    (available : Bool) : (m.editItem id name category price available).1.nextId = m.nextId := by
  unfold Menu.editItem
  cases Menu.editLoop id name category price available m.items <;> rfl

theorem Menu.editItem_idsBelowNext (m : Menu) (id : Int) (name category : String) (price : ℚ)
    (available : Bool) (h : m.IdsBelowNext) :
    (m.editItem id name category price available).1.IdsBelowNext := by
  unfold Menu.editItem
  cases he : Menu.editLoop id name category price available m.items with
  | none => exact h
  | some l1 =>
    intro x hx
    show x.id < m.nextId
    have hx2 : x ∈ l1 := hx
    have hmem : x.id ∈ l1.map (fun y => y.id) := List.mem_map_of_mem _ hx2
    rw [Menu.editLoop_ids id name category price available m.items l1 he] at hmem
    obtain ⟨y, hy, hyx⟩ := List.mem_map.mp hmem
    rw [← hyx]
    exact h y hy

theorem Menu.removeItem_idsBelowNext (m : Menu) (id : Int) (h : m.IdsBelowNext) :
    (m.removeItem id).1.IdsBelowNext := by
  intro x hx
  rw [Menu.removeItem_items] at hx
  rw [Menu.removeItem_nextId]
  exact h x (List.mem_filter.mp hx).1

theorem Menu.addItem_idsBelowNext (m : Menu) (name category : String) (price : ℚ)
    (available : Bool) (h : m.IdsBelowNext) (hlo : -2147483648 ≤ m.nextId)
    (hhi : m.nextId + 1 ≤ 2147483647) :
    (m.addItem name category price available).nextId = m.nextId + 1 ∧
    (m.addItem name category price available).IdsBelowNext := by
  have hw : wrapInt32 (m.nextId + 1) = m.nextId + 1 :=
    wrapInt32_of_fits (m.nextId + 1) (by omega) hhi
  have hn : (m.addItem name category price available).nextId = m.nextId + 1 := hw
  refine ⟨hn, ?_⟩
  intro x hx
  rw [hn]
  have hx2 : x ∈ m.items ++ [⟨m.nextId, name, category, price, available⟩] := hx
  simp only [List.mem_append, List.mem_singleton] at hx2
  rcases hx2 with hx2 | hx2
  · have := h x hx2
    omega
  · rw [hx2]
    show m.nextId < m.nextId + 1
    omega

theorem Menu.run_append (m : Menu) (a b : List MenuOp) :
    m.run (a ++ b) = (m.run a).run b := by
  simp [Menu.run, List.foldl_append]

theorem Menu.addCount_append (a b : List MenuOp) :
    Menu.addCount (a ++ b) = Menu.addCount a + Menu.addCount b := by
  induction a with
  | nil => simp [Menu.addCount]
  | cons op rest ih =>
    cases op with
    | addItem name category price available =>
      show Menu.addCount (rest ++ b) + 1 = Menu.addCount rest + 1 + Menu.addCount b
      rw [ih]; omega
    | editItem id name category price available =>
      show Menu.addCount (rest ++ b) = Menu.addCount rest + Menu.addCount b
      exact ih
    | removeItem id =>
      show Menu.addCount (rest ++ b) = Menu.addCount rest + Menu.addCount b
      exact ih

/-- While the counter stays within `int`, a run of administrative calls
raises `nextId` by the number of `addItem` calls and keeps every identifier
below it. -/
theorem Menu.run_spec (ops : List MenuOp) :
    ∀ m : Menu, m.IdsBelowNext → -2147483648 ≤ m.nextId →
      m.nextId + (Menu.addCount ops : Int) ≤ 2147483647 →
      (m.run ops).nextId = m.nextId + (Menu.addCount ops : Int) ∧ (m.run ops).IdsBelowNext := by
  induction ops with
  | nil =>
    intro m h _ _
    exact ⟨by simp [Menu.run, Menu.addCount], h⟩
  | cons op rest ih =>
    intro m h hlo hhi
    cases op with
    | addItem name category price available =>
      simp only [Menu.addCount, Nat.cast_add, Nat.cast_one] at hhi
      have h1 := Menu.addItem_idsBelowNext m name category price available h hlo (by omega)
      have h2 := ih (m.addItem name category price available) h1.2 (by omega) (by omega)
      have hr : m.run (MenuOp.addItem name category price available :: rest)
          = (m.addItem name category price available).run rest := rfl
      rw [hr]
      refine ⟨?_, h2.2⟩
      rw [h2.1, h1.1]
      simp only [Menu.addCount, Nat.cast_add, Nat.cast_one]
      omega
    | editItem id name category price available =>
      simp only [Menu.addCount] at hhi
      have hn := Menu.editItem_nextId m id name category price available
      have h2 := ih (m.editItem id name category price available).1
        (Menu.editItem_idsBelowNext m id name category price available h)
        (by omega) (by omega)
      have hr : m.run (MenuOp.editItem id name category price available :: rest)
          = (m.editItem id name category price available).1.run rest := rfl
      rw [hr]
      refine ⟨?_, h2.2⟩
      rw [h2.1, hn]
      simp only [Menu.addCount]
    | removeItem id =>
      simp only [Menu.addCount] at hhi
      have hn := Menu.removeItem_nextId m id
      have h2 := ih (m.removeItem id).1 (Menu.removeItem_idsBelowNext m id h)
        (by omega) (by omega)
      have hr : m.run (MenuOp.removeItem id :: rest) = (m.removeItem id).1.run rest := rfl
      rw [hr]
      refine ⟨?_, h2.2⟩
      rw [h2.1, hn]
      simp only [Menu.addCount]

theorem Menu.findLoop_some_iff (id : Int) (l : List MenuItem) (x : MenuItem) :
    Menu.findLoop id l = some x ↔
      ∃ pre post, l = pre ++ x :: post ∧ x.id = id ∧ x.available = true ∧
        ∀ y ∈ pre, ¬ (y.id = id ∧ y.available = true) := by
  induction l with
  | nil => simp [Menu.findLoop]
  | cons a rest ih =>
    by_cases ha : a.id = id ∧ a.available = true
    · simp only [Menu.findLoop, ha, and_self, if_true, Option.some.injEq]
      constructor
      · intro e
        refine ⟨[], rest, by rw [e]; rfl, ?_, ?_, ?_⟩
        · rw [← e]; exact ha.1
        · rw [← e]; exact ha.2
        · intro y hy; exact absurd hy (List.not_mem_nil y)
      · rintro ⟨pre, post, hl, _, _, hpre⟩
        cases pre with
        | nil =>
          simp only [List.nil_append, List.cons.injEq] at hl
          exact hl.1
        | cons p pre1 =>
          simp only [List.cons_append, List.cons.injEq] at hl
          exact absurd ha (by rw [hl.1]; exact hpre p (List.mem_cons_self p pre1))
    · simp only [Menu.findLoop, ha, if_false, ih]
      constructor
      · rintro ⟨pre, post, hl, h1, h2, hpre⟩
        refine ⟨a :: pre, post, by rw [hl]; rfl, h1, h2, ?_⟩
        intro y hy
        rcases List.mem_cons.mp hy with e | e
        · rw [e]; exact ha
        · exact hpre y e
      · rintro ⟨pre, post, hl, h1, h2, hpre⟩
        cases pre with
        | nil =>
          simp only [List.nil_append, List.cons.injEq] at hl
          exact absurd (And.intro h1 h2) (by rw [← hl.1]; exact ha)
        | cons p pre1 =>
          simp only [List.cons_append, List.cons.injEq] at hl
          exact ⟨pre1, post, hl.2, h1, h2, fun y hy => hpre y (List.mem_cons_of_mem p hy)⟩

theorem Menu.findLoop_none_iff (id : Int) (l : List MenuItem) :
    Menu.findLoop id l = none ↔ ∀ x ∈ l, ¬ (x.id = id ∧ x.available = true) := by
  induction l with
  | nil => simp [Menu.findLoop]
  | cons a rest ih =>
    by_cases ha : a.id = id ∧ a.available = true
    · have hf : Menu.findLoop id (a :: rest) = some a := by
        simp only [Menu.findLoop, ha, and_self, if_true]
      rw [hf]
      constructor
      · intro e; exact absurd e (by simp)
      · intro e; exact absurd ha (e a (List.mem_cons_self a rest))
    · have hf : Menu.findLoop id (a :: rest) = Menu.findLoop id rest := by
        simp only [Menu.findLoop, ha, if_false]
      rw [hf, ih]
      constructor
      · intro e x hx
        rcases List.mem_cons.mp hx with h | h
        · rw [h]; exact ha
        · exact e x h
      · intro e x hx
        exact e x (List.mem_cons_of_mem a hx)

/-! ## Order ledger -/

/-- C8, the code at a ledger whose first line is a record: the constructor
of `Orders` skips the first line of `orders.csv` whatever it holds, so a
ledger without header whose only record has id 7 leaves the next identifier
at 1 and `save` assigns 1, not 8; a ledger holding the single record with id 1
gets a second record with id 1.  With the header line in front the same
record gives 8, and an absent or empty ledger gives 1. -/
theorem orders_first_line_skipped :
    Orders.new (some ["7,2025-01-01 10:00:00,2,498.00,0.00,24.90,0.00,522.90,-"])
      = some ⟨1⟩ ∧
    (Orders.save ⟨1⟩ (some ["7,2025-01-01 10:00:00,2,498.00,0.00,24.90,0.00,522.90,-"])
        "2025-01-02 09:00:00,1,99.00,0.00,4.95,35.00,138.95,-").1 = 1 ∧
    Orders.new (some ["1,2025-01-01 10:00:00,1,99.00,0.00,4.95,35.00,138.95,-"])
      = some ⟨1⟩ ∧
    (Orders.save ⟨1⟩ (some ["1,2025-01-01 10:00:00,1,99.00,0.00,4.95,35.00,138.95,-"])
        "2025-01-02 09:00:00,1,99.00,0.00,4.95,35.00,138.95,-").2.2
      = ["1,2025-01-01 10:00:00,1,99.00,0.00,4.95,35.00,138.95,-",
         "1,2025-01-02 09:00:00,1,99.00,0.00,4.95,35.00,138.95,-"] ∧
    Orders.new (some [Orders.header,
        "7,2025-01-01 10:00:00,2,498.00,0.00,24.90,0.00,522.90,-"]) = some ⟨8⟩ ∧
    Orders.new none = some ⟨1⟩ ∧
    Orders.new (some []) = some ⟨1⟩ ∧
    Orders.new (some [Orders.header]) = some ⟨1⟩ := by
  refine ⟨rfl, rfl, rfl, ?_, ?_, rfl, rfl, rfl⟩
  · decide
  · decide

/-! ## Catalog -/

/-- C9 as stated fails: `menu.csv` holding one item with identifier
2147483647 is loaded with `nextId` left at 1, because `mi.id + 1` does not
fit an `int`; the next `addItem` assigns identifier 1, which is not greater
than the identifier 2147483647 in the catalog. -/
theorem catalog_id_counterexample :
    Menu.load (fun _ => some 1) Menu.fresh (some ["2147483647,Tea,Beverages,1.00,1"])
      = some (⟨[⟨2147483647, "Tea", "Beverages", 1, true⟩], 1⟩, true) ∧
    ((Menu.mk [⟨2147483647, "Tea", "Beverages", 1, true⟩] 1).addItem
        "Chai" "Beverages" 20 true).items
      = [⟨2147483647, "Tea", "Beverages", 1, true⟩, ⟨1, "Chai", "Beverages", 20, true⟩] ∧
    ¬ (∀ x ∈ ((Menu.mk [⟨2147483647, "Tea", "Beverages", 1, true⟩] 1).run []).items,
        x.id < ((Menu.mk [⟨2147483647, "Tea", "Beverages", 1, true⟩] 1).run ([] ++ [])).nextId) := by
  refine ⟨by decide, by decide, ?_⟩
  intro hall
  have h := hall ⟨2147483647, "Tea", "Beverages", 1, true⟩ (List.mem_singleton_self _)
  exact absurd h (by decide)

/-- C9, amended: starting from a catalog produced by `Menu::load` or
`Menu::seedIfEmpty` in which every identifier is below 2147483647, after any
sequence of `addItem`, `editItem` and `removeItem` calls that keeps `nextId`
within `int`, split at any point into `earlier` and `later`, the next
`addItem` appends an item whose identifier is strictly greater than every
identifier that was in the catalog after `earlier`; so the identifier of a
removed item is never assigned again, and an `addItem` that follows another
`addItem` gets a strictly greater identifier. -/
theorem catalog_ids_never_reused (stod : String → Option ℚ) (prev : Menu)
    (file : Option (List String)) (m0 : Menu)
    (h : (∃ b, Menu.load stod prev file = some (m0, b)) ∨
         Menu.seedIfEmpty stod prev file = some m0)
    (hprev : -2147483648 ≤ prev.nextId)
    (hids : ∀ x ∈ m0.items, x.id < 2147483647)
    (earlier later : List MenuOp) (name category : String) (price : ℚ) (available : Bool)
    (hfit : m0.nextId + (Menu.addCount (earlier ++ later) : Int) ≤ 2147483647) :
    ((m0.run (earlier ++ later)).addItem name category price available).items
      = (m0.run (earlier ++ later)).items
          ++ [⟨(m0.run (earlier ++ later)).nextId, name, category, price, available⟩] ∧
    (∀ x ∈ (m0.run earlier).items, x.id < (m0.run (earlier ++ later)).nextId) ∧
    (∀ n c p a later1, later = MenuOp.addItem n c p a :: later1 →
      (m0.run earlier).nextId < (m0.run (earlier ++ later)).nextId) := by
  have h0 : m0.IdsBelowNext ∧ -2147483648 ≤ m0.nextId := by
    rcases h with ⟨b, hb⟩ | hs
    · have h1 := Menu.load_idsBelowNext stod prev file m0 b hb hids
      exact ⟨h1.1, le_trans hprev h1.2⟩
    · exact Menu.seedIfEmpty_idsBelowNext stod prev file m0 hs hprev hids
  have hcount := Menu.addCount_append earlier later
  have hall := Menu.run_spec (earlier ++ later) m0 h0.1 h0.2 hfit
  have hpre := Menu.run_spec earlier m0 h0.1 h0.2 (by rw [hcount] at hfit; push_cast at hfit; omega)
  refine ⟨rfl, ?_, ?_⟩
  · intro x hx
    have h1 := hpre.2 x hx
    rw [hall.1, hcount]
    rw [hpre.1] at h1
    push_cast
    omega
  · intro n c p a later1 hl
    rw [hall.1, hpre.1, hcount, hl]
    simp only [Menu.addCount, Nat.cast_add, Nat.cast_one]
    omega

/-- An instance of C9: the catalog loaded from a file with a header and the
two items 3 and 5; item 5 is removed, an item is added and takes 6, and the
next `addItem` takes 7: above 3 and 5, and above 6. -/
theorem catalog_ids_never_reused_witness :
    Menu.load (fun _ => some 129) Menu.fresh
        (some ["id,name,category,price,available",
               "3,Masala Dosa,South Indian,129.00,1",
               "5,Veg Biryani,Rice,129.00,0"])
      = some (⟨[⟨3, "Masala Dosa", "South Indian", 129, true⟩,
                ⟨5, "Veg Biryani", "Rice", 129, false⟩], 6⟩, true) ∧
    (∀ x ∈ (Menu.run ⟨[⟨3, "Masala Dosa", "South Indian", 129, true⟩,
                       ⟨5, "Veg Biryani", "Rice", 129, false⟩], 6⟩ []).items,
      x.id < (Menu.run ⟨[⟨3, "Masala Dosa", "South Indian", 129, true⟩,
                         ⟨5, "Veg Biryani", "Rice", 129, false⟩], 6⟩
                ([] ++ [MenuOp.removeItem 5, MenuOp.addItem "Tea" "Beverages" 30 true])).nextId) ∧
    (Menu.run ⟨[⟨3, "Masala Dosa", "South Indian", 129, true⟩,
                ⟨5, "Veg Biryani", "Rice", 129, false⟩], 6⟩
        [MenuOp.removeItem 5, MenuOp.addItem "Tea" "Beverages" 30 true])
      = ⟨[⟨3, "Masala Dosa", "South Indian", 129, true⟩,
          ⟨6, "Tea", "Beverages", 30, true⟩], 7⟩ := by
  have hload : Menu.load (fun _ => some 129) Menu.fresh
        (some ["id,name,category,price,available",
               "3,Masala Dosa,South Indian,129.00,1",
               "5,Veg Biryani,Rice,129.00,0"])
      = some (⟨[⟨3, "Masala Dosa", "South Indian", 129, true⟩,
                ⟨5, "Veg Biryani", "Rice", 129, false⟩], 6⟩, true) := by
    decide
  refine ⟨hload, ?_, ?_⟩
  · refine (catalog_ids_never_reused (fun _ => some 129) Menu.fresh _ _
      (Or.inl ⟨true, hload⟩) (by decide) ?_ []
      [MenuOp.removeItem 5, MenuOp.addItem "Tea" "Beverages" 30 true]
      "Chai" "Beverages" 20 true (by decide)).2.1
    intro x hx
    simp only [List.mem_cons, List.mem_singleton, List.not_mem_nil, or_false] at hx
    rcases hx with e | e <;> (rw [e]; decide)
  · decide

/-- C10: `Menu::findById` returns an item exactly when the catalog has an
item with that identifier whose availability flag is true; the item returned
is the first such item in catalog order; and it returns not-found otherwise,
in particular when every item with that identifier is unavailable. -/
theorem findById_available (m : Menu) (id : Int) :
    ((∃ x, m.findById id = some x) ↔ ∃ x ∈ m.items, x.id = id ∧ x.available = true) ∧
    (∀ x, m.findById id = some x ↔
      ∃ pre post, m.items = pre ++ x :: post ∧ x.id = id ∧ x.available = true ∧
        ∀ y ∈ pre, ¬ (y.id = id ∧ y.available = true)) ∧
    (m.findById id = none ↔ ∀ x ∈ m.items, x.id = id → x.available = false) ∧
    (Menu.mk [⟨3, "Masala Dosa", "South Indian", 129, false⟩,
              ⟨5, "Veg Biryani", "Rice", 199, true⟩] 6).findById 3 = none := by
  refine ⟨?_, fun x => Menu.findLoop_some_iff id m.items x, ?_, ?_⟩
  · constructor
    · rintro ⟨x, hx⟩
      obtain ⟨pre, post, hl, h1, h2, _⟩ := (Menu.findLoop_some_iff id m.items x).mp hx
      exact ⟨x, by rw [hl]; simp, h1, h2⟩
    · rintro ⟨x, hx, h1, h2⟩
      cases hf : m.findById id with
      | some y => exact ⟨y, rfl⟩
      | none =>
        exact absurd (And.intro h1 h2) ((Menu.findLoop_none_iff id m.items).mp hf x hx)
  · unfold Menu.findById
    rw [Menu.findLoop_none_iff]
    constructor
    · intro hall x hx hid
      cases hav : x.available with
      | false => rfl
      | true => exact absurd (And.intro hid hav) (hall x hx)
    · intro hall x hx hc
      have := hall x hx hc.1
      rw [hc.2] at this
      exact absurd this (by decide)
  · decide

/-! ## Cart subtotal after an addition -/

theorem Cart.exactTotal_cons (a : CartItem) (rest : List CartItem) :
    (Cart.mk (a :: rest)).exactTotal
      = a.item.price * (a.qty : ℚ) + (Cart.mk rest).exactTotal := by
  simp [Cart.exactTotal]

theorem Cart.addLoop_exactTotal (mi : MenuItem) (qty : Int) (l : List CartItem) :
    (Cart.mk (Cart.addLoop mi qty l)).exactTotal
      = (Cart.mk l).exactTotal
        + (qty : ℚ) * (match Cart.snapshotPrice mi.id l with
            | some p => p
            | none => mi.price) := by
  induction l with
  | nil =>
    simp only [Cart.addLoop, Cart.snapshotPrice]
    rw [Cart.exactTotal_cons]
    simp only [Cart.exactTotal, List.map_nil, List.sum_nil]
    ring
  | cons a rest ih =>
    by_cases h : a.item.id = mi.id
    · simp only [Cart.addLoop, Cart.snapshotPrice, h, if_true]
      rw [Cart.exactTotal_cons, Cart.exactTotal_cons]
      push_cast
      ring
    · simp only [Cart.addLoop, Cart.snapshotPrice, h, if_false]
      rw [Cart.exactTotal_cons, Cart.exactTotal_cons, ih]
      ring

theorem Cart.wholeLines_cons (a : CartItem) (rest : List CartItem)
    (h : Cart.WholeLines (a :: rest)) :
    ((∃ n : ℕ, a.item.price = (n : ℚ)) ∧ 0 ≤ a.qty) ∧ Cart.WholeLines rest :=
  ⟨h a (List.mem_cons_self a rest), fun ci hci => h ci (List.mem_cons_of_mem a hci)⟩

theorem Cart.exactTotal_whole (l : List CartItem) (h : Cart.WholeLines l) :
    ∃ n : ℕ, (Cart.mk l).exactTotal = (n : ℚ) := by
  induction l with
  | nil => exact ⟨0, by simp [Cart.exactTotal]⟩
  | cons a rest ih =>
    obtain ⟨⟨⟨n, hn⟩, hq⟩, hr⟩ := Cart.wholeLines_cons a rest h
    obtain ⟨t, ht⟩ := ih hr
    refine ⟨n * a.qty.toNat + t, ?_⟩
    rw [Cart.exactTotal_cons, ht, hn]
    have hk : (a.qty : ℚ) = ((a.qty.toNat : ℕ) : ℚ) := by
      have : (a.qty.toNat : ℤ) = a.qty := Int.toNat_of_nonneg hq
      exact_mod_cast this.symm
    rw [hk]
    push_cast
    ring

/-- With whole prices and a total below `2^53` no product and no sum of
`Cart::subtotal` is rounded: the loop returns the exact total. -/
theorem Cart.subtotal_foldl_whole (l : List CartItem) :
    ∀ a : ℕ, Cart.WholeLines l → (a : ℚ) + (Cart.mk l).exactTotal < 2 ^ 53 →
      l.foldl (fun s ci => toDouble (s + toDouble (ci.item.price * (ci.qty : ℚ)))) (a : ℚ)
        = (a : ℚ) + (Cart.mk l).exactTotal := by
  induction l with
  | nil =>
    intro a _ _
    simp [Cart.exactTotal]
  | cons ci rest ih =>
    intro a h hb
    obtain ⟨⟨⟨n, hn⟩, hq⟩, hr⟩ := Cart.wholeLines_cons ci rest h
    obtain ⟨t, ht⟩ := Cart.exactTotal_whole rest hr
    have hk : (ci.qty : ℚ) = ((ci.qty.toNat : ℕ) : ℚ) := by
      have : (ci.qty.toNat : ℤ) = ci.qty := Int.toNat_of_nonneg hq
      exact_mod_cast this.symm
    rw [Cart.exactTotal_cons, ht, hn, hk] at hb
    have ha0 : (0 : ℚ) ≤ (a : ℚ) := Nat.cast_nonneg a
    have ht0 : (0 : ℚ) ≤ (t : ℚ) := Nat.cast_nonneg t
    have hp0 : (0 : ℚ) ≤ (n : ℚ) * ((ci.qty.toNat : ℕ) : ℚ) :=
      mul_nonneg (Nat.cast_nonneg n) (Nat.cast_nonneg _)
    have hprod : toDouble ((n : ℚ) * ((ci.qty.toNat : ℕ) : ℚ))
        = (n : ℚ) * ((ci.qty.toNat : ℕ) : ℚ) := by
      have h1 := toDouble_natCast (n * ci.qty.toNat) (by push_cast; linarith)
      push_cast at h1
      exact h1
    have hsum : toDouble ((a : ℚ) + (n : ℚ) * ((ci.qty.toNat : ℕ) : ℚ))
        = (a : ℚ) + (n : ℚ) * ((ci.qty.toNat : ℕ) : ℚ) := by
      have h1 := toDouble_natCast (a + n * ci.qty.toNat) (by push_cast; linarith)
      push_cast at h1
      exact h1
    simp only [List.foldl_cons]
    rw [hn, hk, hprod, hsum]
    have hstep := ih (a + n * ci.qty.toNat) hr (by rw [ht]; push_cast; linarith)
    push_cast at hstep
    rw [hstep, Cart.exactTotal_cons, hn, hk]
    ring

theorem Cart.subtotal_eq_exactTotal (c : Cart) (h : Cart.WholeLines c.items)
    (hb : c.exactTotal < 2 ^ 53) : c.subtotal = c.exactTotal := by
  have h1 := Cart.subtotal_foldl_whole c.items 0 h (by simpa using hb)
  simpa [Cart.subtotal] using h1

theorem Cart.addLoop_whole (mi : MenuItem) (qty : Int) (l : List CartItem)
    (h : Cart.WholeLines l) (hm : ∃ n : ℕ, mi.price = (n : ℚ)) (hq : 0 ≤ qty) :
    Cart.WholeLines (Cart.addLoop mi qty l) := by
  induction l with
  | nil =>
    intro ci hci
    simp only [Cart.addLoop, List.mem_singleton] at hci
    rw [hci]
    exact ⟨hm, hq⟩
  | cons a rest ih =>
    obtain ⟨⟨ha, haq⟩, hr⟩ := Cart.wholeLines_cons a rest h
    intro ci hci
    by_cases hid : a.item.id = mi.id
    · simp only [Cart.addLoop, hid, if_true, List.mem_cons] at hci
      rcases hci with e | e
      · rw [e]
        exact ⟨ha, by show 0 ≤ a.qty + qty; omega⟩
      · exact hr ci e
    · simp only [Cart.addLoop, hid, if_false, List.mem_cons] at hci
      rcases hci with e | e
      · rw [e]; exact ⟨ha, haq⟩
      · exact ih hr ci e

theorem Cart.snapshotPrice_whole (id : Int) (l : List CartItem) (h : Cart.WholeLines l)
    (p : ℚ) (hp : Cart.snapshotPrice id l = some p) : ∃ n : ℕ, p = (n : ℚ) := by
  induction l with
  | nil => simp [Cart.snapshotPrice] at hp
  | cons a rest ih =>
    obtain ⟨⟨ha, _⟩, hr⟩ := Cart.wholeLines_cons a rest h
    by_cases hid : a.item.id = id
    · simp only [Cart.snapshotPrice, hid, if_true, Option.some.injEq] at hp
      rw [← hp]; exact ha
    · simp only [Cart.snapshotPrice, hid, if_false] at hp
      exact ih hr hp

theorem Cart.addLoop_snapshots (mi : MenuItem) (qty : Int) (l : List CartItem) :
    (Cart.addLoop mi qty l).map (fun ci => ci.item)
      = match Cart.snapshotPrice mi.id l with
        | some _ => l.map (fun ci => ci.item)
        | none => l.map (fun ci => ci.item) ++ [mi] := by
  induction l with
  | nil => simp [Cart.addLoop, Cart.snapshotPrice]
  | cons a rest ih =>
    by_cases h : a.item.id = mi.id
    · simp [Cart.addLoop, Cart.snapshotPrice, h]
    · simp only [Cart.addLoop, Cart.snapshotPrice, h, if_false, List.map_cons, ih]
      cases Cart.snapshotPrice mi.id rest <;> simp

theorem Cart.snapshotPrice_some_iff (id : Int) (l : List CartItem) (p : ℚ) :
    Cart.snapshotPrice id l = some p ↔
      ∃ pre ci post, l = pre ++ ci :: post ∧ ci.item.id = id ∧ ci.item.price = p ∧
        ∀ y ∈ pre, y.item.id ≠ id := by
  induction l with
  | nil => simp [Cart.snapshotPrice]
  | cons a rest ih =>
    by_cases h : a.item.id = id
    · have hf : Cart.snapshotPrice id (a :: rest) = some a.item.price := by
        simp only [Cart.snapshotPrice, h, if_true]
      rw [hf]
      constructor
      · intro e
        exact ⟨[], a, rest, rfl, h, Option.some.inj e,
          fun y hy => absurd hy (List.not_mem_nil y)⟩
      · rintro ⟨pre, ci, post, hl, _, hp, hpre⟩
        cases pre with
        | nil =>
          simp only [List.nil_append, List.cons.injEq] at hl
          rw [hl.1, hp]
        | cons b pre1 =>
          simp only [List.cons_append, List.cons.injEq] at hl
          exact absurd (by rw [← hl.1]; exact h) (hpre b (List.mem_cons_self b pre1))
    · have hf : Cart.snapshotPrice id (a :: rest) = Cart.snapshotPrice id rest := by
        simp only [Cart.snapshotPrice, h, if_false]
      rw [hf, ih]
      constructor
      · rintro ⟨pre, ci, post, hl, h1, h2, hpre⟩
        refine ⟨a :: pre, ci, post, by rw [hl]; rfl, h1, h2, ?_⟩
        intro y hy
        rcases List.mem_cons.mp hy with e | e
        · rw [e]; exact h
        · exact hpre y e
      · rintro ⟨pre, ci, post, hl, h1, h2, hpre⟩
        cases pre with
        | nil =>
          simp only [List.nil_append, List.cons.injEq] at hl
          exact absurd (by rw [hl.1]; exact h1) h
        | cons b pre1 =>
          simp only [List.cons_append, List.cons.injEq] at hl
          exact ⟨pre1, ci, post, hl.2, h1, h2, fun y hy => hpre y (List.mem_cons_of_mem b hy)⟩

theorem Cart.snapshotPrice_none_iff (id : Int) (l : List CartItem) :
    Cart.snapshotPrice id l = none ↔ ∀ ci ∈ l, ci.item.id ≠ id := by
  induction l with
  | nil => simp [Cart.snapshotPrice]
  | cons a rest ih =>
    by_cases h : a.item.id = id
    · have hf : Cart.snapshotPrice id (a :: rest) = some a.item.price := by
        simp only [Cart.snapshotPrice, h, if_true]
      rw [hf]
      constructor
      · intro e; exact absurd e (by simp)
      · intro e; exact absurd h (e a (List.mem_cons_self a rest))
    · have hf : Cart.snapshotPrice id (a :: rest) = Cart.snapshotPrice id rest := by
        simp only [Cart.snapshotPrice, h, if_false]
      rw [hf, ih]
      constructor
      · intro e ci hci
        rcases List.mem_cons.mp hci with e1 | e1
        · rw [e1]; exact h
        · exact e ci e1
      · intro e ci hci
        exact e ci (List.mem_cons_of_mem a hci)

theorem Cart.addLoop_first_match (mi : MenuItem) (qty : Int) (pre post : List CartItem)
    (ci : CartItem) (hid : ci.item.id = mi.id) (hpre : ∀ y ∈ pre, y.item.id ≠ mi.id) :
    Cart.addLoop mi qty (pre ++ ci :: post) = pre ++ ⟨ci.item, ci.qty + qty⟩ :: post := by
  induction pre with
  | nil => simp [Cart.addLoop, hid]
  | cons a rest ih =>
    have ha : ¬ a.item.id = mi.id := hpre a (List.mem_cons_self a rest)
    have hr : ∀ y ∈ rest, y.item.id ≠ mi.id := fun y hy => hpre y (List.mem_cons_of_mem a hy)
    have hstep : Cart.addLoop mi qty (a :: (rest ++ ci :: post))
        = a :: Cart.addLoop mi qty (rest ++ ci :: post) := by
      simp only [Cart.addLoop, ha, if_false]
    rw [List.cons_append, hstep, ih hr, List.cons_append]

theorem Cart.addLoop_no_match (mi : MenuItem) (qty : Int) (l : List CartItem)
    (hl : ∀ y ∈ l, y.item.id ≠ mi.id) : Cart.addLoop mi qty l = l ++ [⟨mi, qty⟩] := by
  induction l with
  | nil => rfl
  | cons a rest ih =>
    have ha : ¬ a.item.id = mi.id := hl a (List.mem_cons_self a rest)
    have hr : ∀ y ∈ rest, y.item.id ≠ mi.id := fun y hy => hl y (List.mem_cons_of_mem a hy)
    have hstep : Cart.addLoop mi qty (a :: rest) = a :: Cart.addLoop mi qty rest := by
      simp only [Cart.addLoop, ha, if_false]
    rw [hstep, ih hr, List.cons_append]

theorem toDouble_29_9 : toDouble 29.9 = 4208050901824307 / 140737488355328 := by
  rw [toDouble_near 29.9 4 8416101803648614 (by norm_num [abs_of_pos])
    (by norm_num [abs_of_pos]) (by norm_num) (by norm_num [abs_lt])]
  norm_num

theorem toDouble_29_9_fixed :
    toDouble (4208050901824307 / 140737488355328) = 4208050901824307 / 140737488355328 := by
  rw [toDouble_near _ 4 8416101803648614 (by norm_num [abs_of_pos])
    (by norm_num [abs_of_pos]) (by norm_num) (by norm_num [abs_lt])]
  norm_num

theorem toDouble_29_9_times_6 :
    toDouble (4208050901824307 / 140737488355328 * 6)
      = 1578019088184115 / 8796093022208 := by
  have hm : roundHalfEven
      (4208050901824307 / 140737488355328 * 6 / (2 : ℚ) ^ ((7 : ℤ) - 52))
      = 6312076352736460 := by
    rw [roundHalfEven_tie _ 6312076352736460 (by norm_num)]
    decide
  rw [toDouble_eval _ 7 6312076352736460 (by norm_num [abs_of_pos])
    (by norm_num [abs_of_pos]) (by norm_num) hm]
  norm_num

theorem toDouble_179_4_less :
    toDouble (1578019088184115 / 8796093022208) = 1578019088184115 / 8796093022208 := by
  rw [toDouble_near _ 7 6312076352736460 (by norm_num [abs_of_pos])
    (by norm_num [abs_of_pos]) (by norm_num) (by norm_num [abs_lt])]
  norm_num

theorem toDouble_29_9_times_5 :
    toDouble (5 * (4208050901824307 / 140737488355328)) = 299 / 2 := by
  rw [toDouble_near _ 7 5260063627280384 (by norm_num [abs_of_pos])
    (by norm_num [abs_of_pos]) (by norm_num) (by norm_num [abs_lt])]
  norm_num

theorem toDouble_179_4 :
    toDouble (4208050901824307 / 140737488355328 + 299 / 2)
      = 6312076352736461 / 35184372088832 := by
  rw [toDouble_near _ 7 6312076352736461 (by norm_num [abs_of_pos])
    (by norm_num [abs_of_pos]) (by norm_num) (by norm_num [abs_lt])]
  norm_num

/-- C11 as stated fails: a cart holds one unit of an item priced 29.9 (the
`double` nearest to it) and five more are added.  `Cart::subtotal` then
returns 179.39999999999998, the rounded product of the price and 6, while the
subtotal before was 29.9: the subtotal before plus five times the price is
not that value, neither computed exactly nor computed in `double` arithmetic
(179.4). -/
theorem add_subtotal_counterexample :
    (Cart.mk [⟨⟨1, "Tea", "Beverages", toDouble 29.9, true⟩, 1⟩]).subtotal = toDouble 29.9 ∧
    ((Cart.mk [⟨⟨1, "Tea", "Beverages", toDouble 29.9, true⟩, 1⟩]).add
        ⟨1, "Tea", "Beverages", toDouble 29.9, true⟩ 5).subtotal
      = 1578019088184115 / 8796093022208 ∧
    ¬ ((Cart.mk [⟨⟨1, "Tea", "Beverages", toDouble 29.9, true⟩, 1⟩]).add
        ⟨1, "Tea", "Beverages", toDouble 29.9, true⟩ 5).subtotal
      = (Cart.mk [⟨⟨1, "Tea", "Beverages", toDouble 29.9, true⟩, 1⟩]).subtotal
          + ((5 : Int) : ℚ) * toDouble 29.9 ∧
    ¬ ((Cart.mk [⟨⟨1, "Tea", "Beverages", toDouble 29.9, true⟩, 1⟩]).add
        ⟨1, "Tea", "Beverages", toDouble 29.9, true⟩ 5).subtotal
      = toDouble ((Cart.mk [⟨⟨1, "Tea", "Beverages", toDouble 29.9, true⟩, 1⟩]).subtotal
          + toDouble (((5 : Int) : ℚ) * toDouble 29.9)) := by
  have hc1 : ((1 : ℤ) : ℚ) = 1 := by norm_num
  have hc5 : ((5 : ℤ) : ℚ) = 5 := by norm_num
  have hc6 : (((1 : ℤ) + 5 : ℤ) : ℚ) = 6 := by norm_num
  have hb : (Cart.mk [⟨⟨1, "Tea", "Beverages", toDouble 29.9, true⟩, 1⟩]).subtotal
      = toDouble 29.9 := by
    rw [Cart.subtotal_single]
    show toDouble (toDouble (toDouble 29.9 * ((1 : ℤ) : ℚ))) = _
    rw [hc1, mul_one, toDouble_29_9, toDouble_29_9_fixed, toDouble_29_9_fixed]
  have hitems : (Cart.mk [⟨⟨1, "Tea", "Beverages", toDouble 29.9, true⟩, 1⟩]).add
        ⟨1, "Tea", "Beverages", toDouble 29.9, true⟩ 5
      = Cart.mk [⟨⟨1, "Tea", "Beverages", toDouble 29.9, true⟩, 1 + 5⟩] := by
    simp [Cart.add, Cart.addLoop]
  have ha : ((Cart.mk [⟨⟨1, "Tea", "Beverages", toDouble 29.9, true⟩, 1⟩]).add
        ⟨1, "Tea", "Beverages", toDouble 29.9, true⟩ 5).subtotal
      = 1578019088184115 / 8796093022208 := by
    rw [hitems, Cart.subtotal_single]
    show toDouble (toDouble (toDouble 29.9 * (((1 : ℤ) + 5 : ℤ) : ℚ))) = _
    rw [hc6, toDouble_29_9, toDouble_29_9_times_6, toDouble_179_4_less]
  refine ⟨hb, ha, ?_, ?_⟩
  · rw [ha, hb, hc5, toDouble_29_9]
    norm_num
  · rw [ha, hb, hc5, toDouble_29_9, toDouble_29_9_times_5, toDouble_179_4]
    norm_num

/-- C11, amended: for every cart, item `m` and quantity `q > 0` that keeps
the line's quantity within `int`, `Cart::add(m, q)` only raises by `q` the
quantity of the first line with `m`'s identifier, which keeps its snapshot
(name, category, price), or appends the line `(m, q)` when no line has the
identifier.  The exact total of the lines therefore grows by `q` times a unit
price `p`: the price snapshotted in that line when it exists, `m`'s own price
otherwise.  The `double` that `Cart::subtotal` returns grows by exactly `q`
times `p` when no rounding occurs, which is the case when all prices are whole
numbers, quantities are not negative and the new total is below `2^53`. -/
theorem add_subtotal (c : Cart) (m : MenuItem) (q : Int) (hq : 0 < q)
    (_hfit : ∀ ci ∈ c.items, ci.item.id = m.id → ci.qty + q ≤ 2147483647) :
    (∀ pre ci post, c.items = pre ++ ci :: post → ci.item.id = m.id →
        (∀ y ∈ pre, y.item.id ≠ m.id) →
        (c.add m q).items = pre ++ ⟨ci.item, ci.qty + q⟩ :: post ∧
        (c.add m q).exactTotal = c.exactTotal + (q : ℚ) * ci.item.price) ∧
    ((∀ ci ∈ c.items, ci.item.id ≠ m.id) →
        (c.add m q).items = c.items ++ [⟨m, q⟩] ∧
        (c.add m q).exactTotal = c.exactTotal + (q : ℚ) * m.price) ∧
    ((∃ ci ∈ c.items, ci.item.id = m.id) →
        (c.add m q).items.map (fun ci => ci.item) = c.items.map (fun ci => ci.item)) ∧
    (Cart.WholeLines c.items → (∃ n : ℕ, m.price = (n : ℚ)) →
      c.exactTotal + (q : ℚ) * (match Cart.snapshotPrice m.id c.items with
          | some p => p
          | none => m.price) < 2 ^ 53 →
      (c.add m q).subtotal
        = c.subtotal + (q : ℚ) * (match Cart.snapshotPrice m.id c.items with
            | some p => p
            | none => m.price)) := by
  have hn : ¬ q ≤ 0 := by omega
  have hadd : c.add m q = ⟨Cart.addLoop m q c.items⟩ := by
    simp only [Cart.add, hn, if_false]
  have hexact : (c.add m q).exactTotal
      = c.exactTotal + (q : ℚ) * (match Cart.snapshotPrice m.id c.items with
          | some p => p
          | none => m.price) := by
    rw [hadd, Cart.addLoop_exactTotal]
  refine ⟨?_, ?_, ?_, ?_⟩
  · intro pre ci post hl hid hpre
    have hp : Cart.snapshotPrice m.id c.items = some ci.item.price :=
      (Cart.snapshotPrice_some_iff m.id c.items ci.item.price).mpr
        ⟨pre, ci, post, hl, hid, rfl, hpre⟩
    refine ⟨?_, ?_⟩
    · rw [hadd]
      show Cart.addLoop m q c.items = _
      rw [hl, Cart.addLoop_first_match m q pre post ci hid hpre]
    · rw [hexact, hp]
  · intro hall
    have hp : Cart.snapshotPrice m.id c.items = none :=
      (Cart.snapshotPrice_none_iff m.id c.items).mpr hall
    refine ⟨?_, ?_⟩
    · rw [hadd]
      show Cart.addLoop m q c.items = _
      rw [Cart.addLoop_no_match m q c.items hall]
    · rw [hexact, hp]
  · rintro ⟨ci, hci, hid⟩
    rw [hadd]
    show (Cart.addLoop m q c.items).map (fun ci => ci.item) = _
    rw [Cart.addLoop_snapshots]
    cases hp : Cart.snapshotPrice m.id c.items with
    | some p => rfl
    | none =>
      exact absurd hid ((Cart.snapshotPrice_none_iff m.id c.items).mp hp ci hci)
  · intro hw hm hb
    have hp0 : (0 : ℚ) ≤ (match Cart.snapshotPrice m.id c.items with
          | some p => p
          | none => m.price) := by
      cases hp : Cart.snapshotPrice m.id c.items with
      | some p =>
        obtain ⟨n, hn2⟩ := Cart.snapshotPrice_whole m.id c.items hw p hp
        show 0 ≤ p
        rw [hn2]; exact Nat.cast_nonneg n
      | none =>
        obtain ⟨n, hn2⟩ := hm
        show 0 ≤ m.price
        rw [hn2]; exact Nat.cast_nonneg n
    have hq0 : (0 : ℚ) ≤ (q : ℚ) := by exact_mod_cast hq.le
    have hw2 : Cart.WholeLines (c.add m q).items := by
      rw [hadd]
      exact Cart.addLoop_whole m q c.items hw hm hq.le
    have h1 : (c.add m q).subtotal = (c.add m q).exactTotal :=
      Cart.subtotal_eq_exactTotal _ hw2 (by rw [hexact]; exact hb)
    have h2 : c.subtotal = c.exactTotal :=
      Cart.subtotal_eq_exactTotal c hw (by
        have := mul_nonneg hq0 hp0
        linarith)
    rw [h1, h2, hexact]

/-- An instance of C11: the cart holds two coffees at 99 and one tea
snapshotted at 30; the catalog price of tea has become 45 and two more are
added.  The tea line keeps its snapshot with quantity 3, and the subtotal goes
from 228 to 288, two units at 30 and not at 45. -/
theorem add_subtotal_witness :
    (0 : Int) < 2 ∧
    ((Cart.mk [⟨⟨7, "Cold Coffee", "Beverages", 99, true⟩, 2⟩,
               ⟨⟨1, "Tea", "Beverages", 30, true⟩, 1⟩]).add
        ⟨1, "Tea", "Beverages", 45, true⟩ 2).items
      = [⟨⟨7, "Cold Coffee", "Beverages", 99, true⟩, 2⟩,
         ⟨⟨1, "Tea", "Beverages", 30, true⟩, 1 + 2⟩] ∧
    ((Cart.mk [⟨⟨7, "Cold Coffee", "Beverages", 99, true⟩, 2⟩,
               ⟨⟨1, "Tea", "Beverages", 30, true⟩, 1⟩]).add
        ⟨1, "Tea", "Beverages", 45, true⟩ 2).subtotal
      = (Cart.mk [⟨⟨7, "Cold Coffee", "Beverages", 99, true⟩, 2⟩,
                  ⟨⟨1, "Tea", "Beverages", 30, true⟩, 1⟩]).subtotal + ((2 : Int) : ℚ) * 30 ∧
    (Cart.mk [⟨⟨7, "Cold Coffee", "Beverages", 99, true⟩, 2⟩,
              ⟨⟨1, "Tea", "Beverages", 30, true⟩, 1⟩]).subtotal = 228 := by
  have hfit : ∀ ci ∈ (Cart.mk [⟨⟨7, "Cold Coffee", "Beverages", 99, true⟩, 2⟩,
        ⟨⟨1, "Tea", "Beverages", 30, true⟩, 1⟩]).items,
      ci.item.id = (MenuItem.mk 1 "Tea" "Beverages" 45 true).id →
        ci.qty + 2 ≤ 2147483647 := by
    intro ci hci _
    simp only [List.mem_cons, List.mem_singleton, List.not_mem_nil, or_false] at hci
    rcases hci with e | e <;> (rw [e]; decide)
  have hw : Cart.WholeLines (Cart.mk [⟨⟨7, "Cold Coffee", "Beverages", 99, true⟩, 2⟩,
        ⟨⟨1, "Tea", "Beverages", 30, true⟩, 1⟩]).items := by
    intro ci hci
    simp only [List.mem_cons, List.mem_singleton, List.not_mem_nil, or_false] at hci
    rcases hci with e | e
    · rw [e]; exact ⟨⟨99, by norm_num⟩, by decide⟩
    · rw [e]; exact ⟨⟨30, by norm_num⟩, by decide⟩
  have htot : (Cart.mk [⟨⟨7, "Cold Coffee", "Beverages", 99, true⟩, 2⟩,
        ⟨⟨1, "Tea", "Beverages", 30, true⟩, 1⟩]).exactTotal = 228 := by
    norm_num [Cart.exactTotal]
  have h := add_subtotal
    (Cart.mk [⟨⟨7, "Cold Coffee", "Beverages", 99, true⟩, 2⟩,
              ⟨⟨1, "Tea", "Beverages", 30, true⟩, 1⟩])
    ⟨1, "Tea", "Beverages", 45, true⟩ 2 (by decide) hfit
  have hstate := h.1 [⟨⟨7, "Cold Coffee", "Beverages", 99, true⟩, 2⟩]
      ⟨⟨1, "Tea", "Beverages", 30, true⟩, 1⟩ [] rfl rfl (by decide)
  have hsnap : Cart.snapshotPrice (MenuItem.mk 1 "Tea" "Beverages" 45 true).id
      (Cart.mk [⟨⟨7, "Cold Coffee", "Beverages", 99, true⟩, 2⟩,
        ⟨⟨1, "Tea", "Beverages", 30, true⟩, 1⟩]).items = some 30 := by
    decide
  have hdouble := h.2.2.2 hw ⟨45, by norm_num⟩ (by rw [hsnap, htot]; norm_num)
  rw [hsnap] at hdouble
  refine ⟨by decide, hstate.1, hdouble, ?_⟩
  rw [Cart.subtotal_eq_exactTotal _ hw (by rw [htot]; norm_num), htot]

end FoodOrdering
